import Mathlib

/-!
Verification of the account-synchronization engine of `app/accounts/sync.py`
(class `AccountSynchronizer`).

The development shallowly embeds the reconciliation logic:

* JSON payloads are modelled by `JVal` / `Payload` (association lists of
  string keys).  The payloads the synchronizer stores are flat records whose
  field values are scalars, lists of scalars (tags) or flat objects
  (`token_failures`), which is exactly the shape `JVal` captures.
* Python string primitives used by the code (`str.strip`, `str.lower`,
  `str(x)`, `int(x)`, `float(x)`, `str.replace`) are modelled explicitly on
  `List Char`.  `float` parsing models the decimal and infinity/nan syntax;
  exponent syntax, underscore grouping and IEEE-754 rounding of huge decimals
  are outside the embedding.
* The SHA-256 hex digest of `_checksum` is modelled by an injective stand-in:
  the canonical serialised text itself.  Every use of the digest in the source
  is an equality test, so any injective function models it faithfully;
  collision behaviour of the real hash is not part of the design.
* The database is modelled structurally: a row stores the JSON payload as the
  parsed value (the `json.dumps`/`json.loads` round trip of the storage layer
  is the identity on the values the engine writes), and the denormalised tags
  column stores the list of tag strings that `_serialise_tags` would encode.
* The only exception the normaliser can raise (`int(float("inf"))`, an
  `OverflowError` that the `except (ValueError, TypeError)` handler does not
  catch) is modelled by returning `Except.error`; all other fallible
  operations in the source are guarded by handlers and are modelled totally.
-/

namespace AccountsSync

/-- Whitespace predicate of Python `str.strip` (ASCII part; the unicode
whitespace code points are not used by the repository's data). -/
def pyIsSpace (c : Char) : Bool :=
  c = ' ' || c = '\t' || c = '\n' || c = '\r' || c = '\x0b' || c = '\x0c'

/-- Model of Python `str.strip` on the character list. -/
def pyStripList (l : List Char) : List Char :=
  ((l.dropWhile pyIsSpace).reverse.dropWhile pyIsSpace).reverse

/-- Model of Python `str.strip`. -/
def pyStrip (s : String) : String :=
  String.mk (pyStripList s.data)

/-- Model of Python `str.lower` (ASCII letters; the configuration strings the
code lowercases are ASCII). -/
def asciiLower (s : String) : String :=
  String.mk (s.data.map fun c =>
    if 'A' ≤ c && c ≤ 'Z' then Char.ofNat (c.toNat + 32) else c)

/-- Lexicographic (code-point) comparison of character lists, the order Python
uses to compare strings in `sorted`. -/
def lexLt : List Char → List Char → Bool
  | [], [] => false
  | [], _ :: _ => true
  | _ :: _, [] => false
  | a :: as, b :: bs => if a < b then true else if a = b then lexLt as bs else false

/-- Strict string order (Python `<` on `str`). -/
def strLt (a b : String) : Bool := lexLt a.data b.data

/-- Reflexive string order. -/
def strLe (a b : String) : Bool := !(strLt b a)

/-- Insertion step of the stable sort used to model Python `sorted`. -/
def ordInsertBy (key : α → String) (x : α) : List α → List α
  | [] => [x]
  | y :: ys => if strLe (key x) (key y) then x :: y :: ys else y :: ordInsertBy key x ys

/-- Stable sort by a string key, modelling Python `sorted` (and the
`sort_keys=True` behaviour of `json.dumps`). -/
def sortBy (key : α → String) : List α → List α
  | [] => []
  | x :: xs => ordInsertBy key x (sortBy key xs)

/-- Digit accumulator for decimal parsing. -/
def natOfDigits (l : List Char) : Nat :=
  l.foldl (fun a c => a * 10 + (c.toNat - 48)) 0

/-- Character-level core of Python `int(str)`: optional sign followed by a
nonempty digit string (underscore grouping is not modelled). -/
def intOfChars (l : List Char) : Option Int :=
  match l with
  | '-' :: rest =>
      if rest ≠ [] && rest.all Char.isDigit then some (-(natOfDigits rest : Int)) else none
  | '+' :: rest =>
      if rest ≠ [] && rest.all Char.isDigit then some (natOfDigits rest : Int) else none
  | rest =>
      if rest ≠ [] && rest.all Char.isDigit then some (natOfDigits rest : Int) else none

/-- Model of Python `int(s)` for strings: whitespace is stripped, then an
optionally signed digit string is accepted. -/
def pyParseInt (s : String) : Option Int :=
  intOfChars (pyStripList s.data)

/-- Result of Python `float(s)` as far as the synchronizer consumes it: the
code only ever truncates the parsed value with `int(...)`, so a finite result
is carried as its truncation toward zero. -/
inductive PyFloatVal where
  | finite (trunc : Int)
  | inf
  | nan
  deriving DecidableEq, Repr

/-- Digit-span helper: splits a leading run of digits. -/
def spanDigits (l : List Char) : List Char × List Char :=
  (l.takeWhile Char.isDigit, l.dropWhile Char.isDigit)

/-- Unsigned part of `float(s)`: `digits [. digits]` or `. digits`, or the
words `inf` / `infinity` / `nan` (exponent syntax is not modelled; the
synchronizer never stores exponent-form timestamps). -/
def floatMagOfChars (l : List Char) : Option PyFloatVal :=
  let lower := l.map fun c => if 'A' ≤ c && c ≤ 'Z' then Char.ofNat (c.toNat + 32) else c
  if lower = "inf".data || lower = "infinity".data then some .inf
  else if lower = "nan".data then some .nan
  else
    let (d1, rest) := spanDigits l
    match rest with
    | [] => if d1 ≠ [] then some (.finite (natOfDigits d1 : Int)) else none
    | '.' :: rest2 =>
        let (d2, rest3) := spanDigits rest2
        if rest3 = [] && (d1 ≠ [] || d2 ≠ []) then some (.finite (natOfDigits d1 : Int))
        else none
    | _ => none

/-- Model of Python `float(s)` followed by truncation: the sign is applied to
the truncated magnitude (truncation is toward zero, so the fractional digits
never contribute). -/
def pyParseFloat (s : String) : Option PyFloatVal :=
  match pyStripList s.data with
  | '-' :: rest =>
      (floatMagOfChars rest).map fun v =>
        match v with
        | .finite t => .finite (-t)
        | .inf => .inf
        | .nan => .nan
  | '+' :: rest => floatMagOfChars rest
  | rest => floatMagOfChars rest

/-- Replacement of the two-character sequence CR LF by LF, modelling
`value.replace("\r\n", "\n")` (leftmost, non-overlapping). -/
def replCRLF : List Char → List Char
  | '\r' :: '\n' :: rest => '\n' :: replCRLF rest
  | c :: rest => c :: replCRLF rest
  | [] => []

/-- Replacement of CR by LF, modelling `value.replace("\r", "\n")`. -/
def replCR (l : List Char) : List Char :=
  l.map fun c => if c = '\r' then '\n' else c

/-- Text core of `AccountSynchronizer._normalise_note_value`: normalise line
endings to LF, strip, and turn an empty result into `none`. -/
def normaliseNoteText (s : String) : Option String :=
  let t := pyStripList (replCR (replCRLF s.data))
  if t = [] then none else some (String.mk t)

/-- Scalar JSON value (`None`, `bool`, `int`, `str`).  The repository's
payloads carry no float literals, so JSON numbers are modelled as integers. -/
inductive JPrim where
  | null
  | bool (b : Bool)
  | num (n : Int)
  | str (s : String)
  deriving DecidableEq, Repr

/-- JSON value of an account-record field: a scalar, a list of scalars (tags)
or a flat object (`token_failures`). -/
inductive JVal where
  | prim (p : JPrim)
  | arr (xs : List JPrim)
  | obj (fields : List (String × JPrim))
  deriving DecidableEq, Repr

/-- Account payload: the Python dict, as an insertion-ordered association
list. -/
abbrev Payload := List (String × JVal)

/-- Model of Python `str(x)` for scalars. -/
def pyPrimStr : JPrim → String
  | .null => "None"
  | .bool true => "True"
  | .bool false => "False"
  | .num n => toString n
  | .str s => s

/-- Model of Python `repr(x)` for scalars as it appears inside container
reprs (string quoting is modelled naively, without escape handling, which the
repository's tag data never needs). -/
def pyPrimRepr : JPrim → String
  | .str s => "'" ++ s ++ "'"
  | p => pyPrimStr p

/-- Model of Python `str(x)` on any modelled value; containers print via their
repr as in CPython. -/
def pyStr : JVal → String
  | .prim p => pyPrimStr p
  | .arr xs => "[" ++ String.intercalate ", " (xs.map pyPrimRepr) ++ "]"
  | .obj fs =>
      "\x7b" ++
        String.intercalate ", " (fs.map fun kv => "'" ++ kv.1 ++ "': " ++ pyPrimRepr kv.2) ++
      "\x7d"

/-- Key lookup (first occurrence) in a string-keyed association list, the
model of a Python dict. -/
def lookupKey (p : List (String × α)) (k : String) : Option α :=
  (p.find? fun kv => kv.1 = k).map Prod.snd

/-- Key membership (`k in d`) of a string-keyed association list. -/
def hasKey (p : List (String × α)) (k : String) : Bool :=
  p.any fun kv => kv.1 = k

/-- Python dict assignment: replace the first occurrence in place, append
when the key is new. -/
def setKey (p : List (String × α)) (k : String) (v : α) : List (String × α) :=
  match p with
  | [] => [(k, v)]
  | kv :: rest => if kv.1 = k then (k, v) :: rest else kv :: setKey rest k v

/-- Model of `d.pop(k, None)`: remove the key when present. -/
def popKey (p : List (String × α)) (k : String) : List (String × α) :=
  match p with
  | [] => []
  | kv :: rest => if kv.1 = k then rest else kv :: popKey rest k

/-- Python `==` on scalars: `True == 1` and `False == 0` hold because `bool`
is an `int` subclass. -/
def pyPrimEq : JPrim → JPrim → Bool
  | .null, .null => true
  | .bool a, .bool b => a = b
  | .bool a, .num n => (if a then (1 : Int) else 0) = n
  | .num n, .bool a => n = (if a then (1 : Int) else 0)
  | .num a, .num b => a = b
  | .str a, .str b => a = b
  | _, _ => false

/-- Python `==` on modelled values: lists compare elementwise, dicts compare
as key-value maps. -/
def pyValEq : JVal → JVal → Bool
  | .prim a, .prim b => pyPrimEq a b
  | .arr xs, .arr ys =>
      xs.length = ys.length && (List.zip xs ys).all fun ab => pyPrimEq ab.1 ab.2
  | .obj xs, .obj ys =>
      (xs.all fun kv =>
        match lookupKey ys kv.1 with
        | some w => pyPrimEq kv.2 w
        | none => false) &&
      (ys.all fun kv => hasKey xs kv.1)
  | _, _ => false

/-- Python `==` on optional values (`None == None` holds, `None == x` fails
for any non-`None` `x`). -/
def pyOptEq : Option JVal → Option JVal → Bool
  | none, none => true
  | some a, some b => pyValEq a b
  | _, _ => false

/-- Model of `payload.get(k)`: a stored JSON `null` and an absent key both
yield Python `None`. -/
def pyGet (p : Payload) (k : String) : Option JVal :=
  match lookupKey p k with
  | some (.prim .null) => none
  | v => v

/-- Truthiness of a modelled value (`bool(x)` in Python). -/
def pyTruthy : JVal → Bool
  | .prim .null => false
  | .prim (.bool b) => b
  | .prim (.num n) => n ≠ 0
  | .prim (.str s) => s ≠ ""
  | .arr xs => xs ≠ []
  | .obj fs => fs ≠ []

/-- String escaping of `json.dumps` with `ensure_ascii=False`: quote,
backslash and the common control characters (other control characters do not
occur in the repository's data). -/
def jsonEscapeChar (c : Char) : String :=
  if c = '"' then "\\\""
  else if c = '\\' then "\\\\"
  else if c = '\n' then "\\n"
  else if c = '\r' then "\\r"
  else if c = '\t' then "\\t"
  else String.mk [c]

/-- JSON string literal. -/
def jsonStr (s : String) : String :=
  "\"" ++ String.join (s.data.map jsonEscapeChar) ++ "\""

/-- Canonical serialisation of a scalar. -/
def dumpPrim : JPrim → String
  | .null => "null"
  | .bool true => "true"
  | .bool false => "false"
  | .num n => toString n
  | .str s => jsonStr s

/-- Canonical serialisation of a field value; object keys are sorted exactly
as `json.dumps(..., sort_keys=True, separators=(",", ":"))` sorts them. -/
def dumpJVal : JVal → String
  | .prim p => dumpPrim p
  | .arr xs => "[" ++ String.intercalate "," (xs.map dumpPrim) ++ "]"
  | .obj fs =>
      "\x7b" ++
        String.intercalate ","
          ((sortBy Prod.fst fs).map fun kv => jsonStr kv.1 ++ ":" ++ dumpPrim kv.2) ++
      "\x7d"

/-- Model of `AccountSynchronizer._serialise_payload`: key-sorted,
separator-compact JSON text of the payload. -/
def serialisePayload (p : Payload) : String :=
  "\x7b" ++
    String.intercalate ","
      ((sortBy Prod.fst p).map fun kv => jsonStr kv.1 ++ ":" ++ dumpJVal kv.2) ++
  "\x7d"

/-- Stand-in for the SHA-256 hex digest used by `AccountSynchronizer._checksum`:
the digest is an injective function of the canonical text, and the code only
ever compares digests for equality, so the canonical text itself models it
faithfully. -/
def sha256Hex (s : String) : String := s

/-- Model of `AccountSynchronizer._checksum` on its `str | None` argument
(`checksum(None) = None`). -/
def checksumOf : Option String → Option String
  | none => none
  | some s => some (sha256Hex s)

end AccountsSync

namespace AccountsSync

/-- Tag-list cleaning loop of `_normalise_payload`: `None` entries are
skipped, other entries become `str(tag).strip()`, empty results are dropped.
Duplicates are kept — the loop appends unconditionally. -/
def cleanTagPrims (xs : List JPrim) : List String :=
  xs.filterMap fun t =>
    match t with
    | .null => none
    | t =>
        let x := pyStrip (pyPrimStr t)
        if x = "" then none else some x

/-- Normalisation of the `tags` field: missing or `null` becomes `[]`, a list
is cleaned elementwise, and any non-list value collapses to a singleton of its
stripped string form (or `[]` when that is empty). -/
def normTags (p : Payload) : Payload :=
  match lookupKey p "tags" with
  | none => setKey p "tags" (.arr [])
  | some (.prim .null) => setKey p "tags" (.arr [])
  | some (.arr xs) => setKey p "tags" (.arr ((cleanTagPrims xs).map JPrim.str))
  | some v =>
      let t := pyStrip (pyStr v)
      setKey p "tags" (.arr (if t = "" then [] else [.str t]))

/-- Normalisation of the `note` field via `_normalise_note_value`: removed
when it normalises to nothing, replaced by the normalised text otherwise. -/
def normNote (p : Payload) : Payload :=
  if hasKey p "note" then
    match pyGet p "note" with
    | none => popKey p "note"
    | some v =>
        match normaliseNoteText (pyStr v) with
        | none => popKey p "note"
        | some s => setKey p "note" (.prim (.str s))
  else p

/-- Normalisation of the `status` field: removed when `None`, else replaced by
`str(value).strip()`. -/
def normStatus (p : Payload) : Payload :=
  if hasKey p "status" then
    match pyGet p "status" with
    | none => popKey p "status"
    | some v => setKey p "status" (.prim (.str (pyStrip (pyStr v))))
  else p

/-- Normalisation of the `status_reason` field, identical in shape to
`status`. -/
def normStatusReason (p : Payload) : Payload :=
  if hasKey p "status_reason" then
    match pyGet p "status_reason" with
    | none => popKey p "status_reason"
    | some v => setKey p "status_reason" (.prim (.str (pyStrip (pyStr v))))
  else p

/-- Normalisation of `status_updated_at`: a parseable numeric timestamp is
collapsed to an integer-second string; `float` parse failures and `nan` (whose
`int(...)` raises a caught `ValueError`) keep the stripped text; an infinite
value reproduces the uncaught `OverflowError` of `int(float("inf"))`, which
escapes the `except (ValueError, TypeError)` handler. -/
def normStatusUpdatedAt (p : Payload) : Except String Payload :=
  if hasKey p "status_updated_at" then
    match pyGet p "status_updated_at" with
    | none => .ok (popKey p "status_updated_at")
    | some v =>
        let ss := pyStrip (pyStr v)
        if ss = "" then .ok (popKey p "status_updated_at")
        else
          match pyParseFloat ss with
          | some (.finite t) => .ok (setKey p "status_updated_at" (.prim (.str (toString t))))
          | some .inf => .error "OverflowError: cannot convert float infinity to integer"
          | some .nan => .ok (setKey p "status_updated_at" (.prim (.str ss)))
          | none => .ok (setKey p "status_updated_at" (.prim (.str ss)))
  else .ok p

/-- Coercion of a `token_failures.count` entry to an integer, with the
`except (ValueError, TypeError)` fallback to `0`. -/
def coerceCountPrim : JPrim → Int
  | .null => 0
  | .num n => n
  | .bool b => if b then 1 else 0
  | .str s =>
      let t := pyStrip s
      if t = "" then 0 else (pyParseInt t).getD 0

/-- Normalisation of `token_failures`: a dict gets its `count` entry coerced
to an integer in place (a dict without `count` is kept as is), a scalar is
wrapped as a fresh count dict, and any other shape degrades to count zero. -/
def normTokenFailures (p : Payload) : Payload :=
  if hasKey p "token_failures" then
    match pyGet p "token_failures" with
    | none => popKey p "token_failures"
    | some (.obj fs) =>
        if hasKey fs "count" then
          match lookupKey fs "count" with
          | some cv => setKey p "token_failures" (.obj (setKey fs "count" (.num (coerceCountPrim cv))))
          | none => setKey p "token_failures" (.obj fs)
        else setKey p "token_failures" (.obj fs)
    | some (.prim (.num n)) => setKey p "token_failures" (.obj [("count", .num n)])
    | some (.prim (.bool b)) => setKey p "token_failures" (.obj [("count", .num (if b then 1 else 0))])
    | some (.prim (.str s)) =>
        setKey p "token_failures" (.obj [("count", .num ((pyParseInt s).getD 0))])
    | some (.prim .null) => popKey p "token_failures"
    | some (.arr _) => setKey p "token_failures" (.obj [("count", .num 0)])
  else p

/-- Model of `AccountSynchronizer._normalise_payload`: the per-field
normalisations in source order (tags, note, status, status_updated_at,
status_reason, token_failures).  `Except.error` models the one uncaught
exception, see `normStatusUpdatedAt`. -/
def normalisePayload (p : Payload) : Except String Payload := do
  let p1 := normTags p
  let p2 := normNote p1
  let p3 := normStatus p2
  let p4 ← normStatusUpdatedAt p3
  let p5 := normStatusReason p4
  pure (normTokenFailures p5)

end AccountsSync

namespace AccountsSync

/-- Model of `AccountSynchronizer._normalise_note_value` on a `.get` result
(`None` stays `None`, any other value goes through `str(value)` first). -/
def normaliseNoteVal : Option JVal → Option String
  | none => none
  | some v => normaliseNoteText (pyStr v)

/-- Evaluation of `payload.get("tags", []) or []`: a missing key defaults to
the empty list and any falsy value collapses to it. -/
def tagsValueOrEmpty (p : Payload) : JVal :=
  match lookupKey p "tags" with
  | none => .arr []
  | some v => if pyTruthy v then v else .arr []

/-- Python iteration over a (truthy) value as used by the tag-merge list
comprehension: lists yield their elements, strings their characters, dicts
their keys; iterating a number or boolean raises `TypeError`. -/
def pyIterPrims : JVal → Except String (List JPrim)
  | .arr xs => .ok xs
  | .prim (.str s) => .ok (s.data.map fun c => .str (String.mk [c]))
  | .obj fs => .ok (fs.map fun kv => .str kv.1)
  | .prim _ => .error "TypeError: object is not iterable"

/-- Tag cleaning of `_merge_tags_from_remote`: `str(tag).strip()`, dropping
empties (`None` entries are kept as the string `"None"` here — this loop has
no `None` guard, unlike the normaliser). -/
def mergeCleanTags (xs : List JPrim) : List String :=
  xs.filterMap fun t =>
    let x := pyStrip (pyPrimStr t)
    if x = "" then none else some x

/-- Model of `AccountSynchronizer._merge_tags_from_remote`: compares the
cleaned tag lists as sorted lists and overwrites the local `tags` with the
cleaned remote list when they differ.  Returns the `has_changes` flag and the
updated local payload. -/
def mergeTagsFromRemote (localP remoteP : Payload) : Except String (Bool × Payload) := do
  let remoteElems ← pyIterPrims (tagsValueOrEmpty remoteP)
  let localElems ← pyIterPrims (tagsValueOrEmpty localP)
  let nr := mergeCleanTags remoteElems
  let nl := mergeCleanTags localElems
  if sortBy id nr = sortBy id nl then
    pure (false, localP)
  else
    pure (true, setKey localP "tags" (.arr (nr.map JPrim.str)))

/-- Model of `AccountSynchronizer._merge_note_from_remote`: compares the
normalised notes and adopts the remote one (or removes the local one) when
they differ. -/
def mergeNoteFromRemote (localP remoteP : Payload) : Bool × Payload :=
  let remoteNote := normaliseNoteVal (pyGet remoteP "note")
  let localNote := normaliseNoteVal (pyGet localP "note")
  if localNote = remoteNote then (false, localP)
  else
    match remoteNote with
    | none => (true, popKey localP "note")
    | some s => (true, setKey localP "note" (.prim (.str s)))

/-- Count extraction shared by `_merge_status_from_remote` and
`_has_critical_field_differences`: a dict contributes its coerced `count`
entry, a scalar its own coerced value, everything else `0`. -/
def tokenCount : Option JVal → Int
  | some (.obj fs) =>
      if hasKey fs "count" then
        match lookupKey fs "count" with
        | some cv => coerceCountPrim cv
        | none => 0
      else 0
  | some (.prim (.num n)) => n
  | some (.prim (.bool b)) => if b then 1 else 0
  | some (.prim (.str s)) => (pyParseInt s).getD 0
  | some (.prim .null) => 0
  | some (.arr _) => 0
  | none => 0

/-- Comparison-and-copy block of `_merge_status_from_remote` for one of the
three status fields: when the values differ and the remote value is not
`None`, the remote value is copied and the change flag is set. -/
def mergeStatusField (k : String) (localP remoteP : Payload) : Bool × Payload :=
  if !pyOptEq (pyGet localP k) (pyGet remoteP k) then
    match pyGet remoteP k with
    | some v => (true, setKey localP k v)
    | none => (false, localP)
  else (false, localP)

/-- Token-failure block of `_merge_status_from_remote`: when the extracted
counts differ, the local `token_failures` becomes the remote dict (when it is
one) or a fresh count dict. -/
def mergeTokenFailures (localP remoteP : Payload) : Bool × Payload :=
  if tokenCount (pyGet localP "token_failures") ≠ tokenCount (pyGet remoteP "token_failures") then
    match pyGet remoteP "token_failures" with
    | some (.obj fs) => (true, setKey localP "token_failures" (.obj fs))
    | _ =>
        (true, setKey localP "token_failures"
          (.obj [("count", .num (tokenCount (pyGet remoteP "token_failures")))]))
  else (false, localP)

/-- Model of `AccountSynchronizer._merge_status_from_remote`: the four blocks
in source order (`status`, `status_updated_at`, `status_reason`,
`token_failures`), each reading the payload the previous block produced. -/
def mergeStatusFromRemote (localP remoteP : Payload) : Bool × Payload :=
  let s1 := mergeStatusField "status" localP remoteP
  let s2 := mergeStatusField "status_updated_at" s1.2 remoteP
  let s3 := mergeStatusField "status_reason" s2.2 remoteP
  let s4 := mergeTokenFailures s3.2 remoteP
  (s1.1 || s2.1 || s3.1 || s4.1, s4.2)

/-- Model of `AccountSynchronizer._has_critical_field_differences`: detects a
difference in `status`, `status_updated_at`, `status_reason` or the extracted
`token_failures` count (the `email` argument is only logged by the source). -/
def hasCriticalFieldDifferences (_emailArg : String) (localP remoteP : Payload) : Bool :=
  let d1 := !pyOptEq (pyGet localP "status") (pyGet remoteP "status")
  let d2 := !pyOptEq (pyGet localP "status_updated_at") (pyGet remoteP "status_updated_at")
  let d3 := !pyOptEq (pyGet localP "status_reason") (pyGet remoteP "status_reason")
  let d4 := tokenCount (pyGet localP "token_failures") ≠ tokenCount (pyGet remoteP "token_failures")
  d1 || d2 || d3 || d4

/-- Remote account entry as `sync_db_to_file` hands it to the merge:
normalised payload, recomputed checksum, tombstone flag. -/
structure RemoteRec where
  data : Payload
  checksum : String
  isDeleted : Bool
  deriving DecidableEq, Repr

/-- Running state of `_merge_remote_into_local`: the merged account map and
the report counters. -/
structure MergeState where
  merged : List (String × Payload)
  added : Nat
  updated : Nat
  removed : Nat
  skipped : Nat
  changed : Bool
  deriving DecidableEq, Repr

/-- Loop body of `AccountSynchronizer._merge_remote_into_local` for one remote
account entry, in source order: local checksum computation, tombstone
handling, adoption of remote-only records, the equal-checksum path (with the
critical-field forced update), and the conflict-policy paths for differing
checksums. -/
def mergeStep (strat : String) (st : MergeState) (er : String × RemoteRec) :
    Except String MergeState := do
  let e := er.1
  let r := er.2
  let lpOpt := lookupKey st.merged e
  let localChecksum : Option String ←
    match lpOpt with
    | some lp => do
        let nl ← normalisePayload lp
        pure (checksumOf (some (serialisePayload nl)))
    | none => pure (none : Option String)
  match lpOpt with
  | none =>
      if r.isDeleted then
        pure st
      else
        pure { st with merged := setKey st.merged e r.data, added := st.added + 1, changed := true }
  | some lp =>
      if r.isDeleted then
        if strat = "prefer_local" then
          pure { st with skipped := st.skipped + 1 }
        else
          pure { st with merged := popKey st.merged e, removed := st.removed + 1, changed := true }
      else if localChecksum = some r.checksum then
        if lp ≠ [] && r.data ≠ [] then
          if hasCriticalFieldDifferences e lp r.data then
            if strat = "prefer_remote" then
              pure { st with merged := setKey st.merged e r.data,
                             updated := st.updated + 1, changed := true }
            else do
              let s1 ← mergeTagsFromRemote lp r.data
              let s2 := mergeNoteFromRemote s1.2 r.data
              let s3 := mergeStatusFromRemote s2.2 r.data
              if s1.1 || s2.1 || s3.1 then
                pure { st with merged := setKey st.merged e s3.2,
                               updated := st.updated + 1, changed := true }
              else
                pure st
          else
            pure st
        else
          pure st
      else if strat = "prefer_local" then do
        let s1 ← mergeTagsFromRemote lp r.data
        let s2 := mergeNoteFromRemote s1.2 r.data
        let s3 := mergeStatusFromRemote s2.2 r.data
        if s1.1 || s2.1 || s3.1 then
          pure { st with merged := setKey st.merged e s3.2,
                         updated := st.updated + 1, changed := true }
        else
          pure { st with skipped := st.skipped + 1 }
      else
        pure { st with merged := setKey st.merged e r.data,
                       updated := st.updated + 1, changed := true }

/-- Report value object (`SyncReport` of the source). -/
structure SyncReport where
  message : String
  added : Nat
  updated : Nat
  removed : Nat
  skipped : Nat
  markedDeleted : Nat
  deriving DecidableEq, Repr

/-- Report the merge returns, with the counters of the final state. -/
def mergeReport (st : MergeState) : SyncReport :=
  ⟨"同步完成：新增 " ++ toString st.added ++ "，更新 " ++ toString st.updated ++
      "，移除 " ++ toString st.removed ++ "，跳过 " ++ toString st.skipped,
    st.added, st.updated, st.removed, st.skipped, 0⟩

/-- Model of `AccountSynchronizer._merge_remote_into_local`: folds the loop
body over the remote account entries and packages the merged map, the report
and the `changed` flag. -/
def mergeRemoteIntoLocal (strat : String) (localAccounts : List (String × Payload))
    (remoteAccounts : List (String × RemoteRec)) :
    Except String (List (String × Payload) × SyncReport × Bool) := do
  let st ← remoteAccounts.foldlM (mergeStep strat) ⟨localAccounts, 0, 0, 0, 0, false⟩
  pure (st.merged, mergeReport st, st.changed)

end AccountsSync

namespace AccountsSync

/-- Remote table row of the main account table: email key, stored payload
(the parsed form of the `data` JSON text), checksum, denormalised tags column
(the list the stored JSON text encodes), note column, tombstone flag and
provenance tag. -/
structure Row where
  email : String
  data : Payload
  checksum : String
  tagsCol : List String
  noteCol : Option String
  isDeleted : Bool
  source : String
  deriving DecidableEq, Repr

/-- Remote store: main table rows plus the `(email, tag)` relation. -/
structure RemoteDB where
  rows : List Row
  tagTbl : List (String × String)
  deriving DecidableEq, Repr

/-- Row lookup by email (the table's primary key). -/
def findRow (db : RemoteDB) (e : String) : Option Row :=
  db.rows.find? fun r => r.email = e

/-- Tag set of one email in the tag relation, as `_fetch_existing_tags`
collects it (the relation's composite primary key makes it a set). -/
def tagsOf (tbl : List (String × String)) (e : String) : List String :=
  ((tbl.filter fun p => p.1 = e).map Prod.snd).dedup

/-- Model of `AccountSynchronizer._serialise_tags`: the cleaned tag list the
stored JSON text encodes (the bijective text encoding itself is modelled as
the identity). -/
def serialiseTagsList : JVal → List String
  | .arr xs =>
      xs.filterMap fun t =>
        let x := pyStrip (pyPrimStr t)
        if x = "" then none else some x
  | .prim .null => []
  | v =>
      let x := pyStrip (pyStr v)
      if x = "" then [] else [x]

/-- Model of `AccountSynchronizer._deserialise_tags` on a tags column that
holds a JSON list (the only shape the synchronizer itself writes): each entry
is stripped and empties are dropped.  An absent column is the empty list. -/
def deserialiseTags (raw : List String) : List String :=
  raw.filterMap fun t =>
    let x := pyStrip t
    if x = "" then none else some x

/-- String elements of a normalised payload's `tags` list (after
`_normalise_payload` the list holds only strings). -/
def tagsStrList (n : Payload) : List String :=
  match lookupKey n "tags" with
  | some (.arr xs) =>
      xs.filterMap fun t =>
        match t with
        | .str s => some s
        | _ => none
  | _ => []

/-- Tag-set snapshot of `_prepare_tags_snapshot`:
`set(normalised.get("tags", []))`. -/
def tagsTargetOf (n : Payload) : List String :=
  (tagsStrList n).dedup

/-- Tags-column value the push writes for a normalised payload:
`_serialise_tags(normalised_payload.get("tags", []))`. -/
def tagsColOf (n : Payload) : List String :=
  match pyGet n "tags" with
  | some v => serialiseTagsList v
  | none => serialiseTagsList (.arr [])

/-- Note-column value the push writes: `normalised_payload.get("note")`
(a string or SQL `NULL`; normalised payloads store notes as strings). -/
def noteColOf (n : Payload) : Option String :=
  match lookupKey n "note" with
  | some (.prim (.str s)) => some s
  | _ => none

/-- Row the push writes for a normalised local payload, both on INSERT and on
UPDATE (`is_deleted` is cleared in both cases). -/
def canonicalRow (e : String) (n : Payload) (src : String) : Row :=
  ⟨e, n, sha256Hex (serialisePayload n), tagsColOf n, noteColOf n, false, src⟩

/-- Single SQL write of the push transaction. -/
inductive WriteOp where
  | insertRow (r : Row)
  | updateRow (r : Row)
  | markDeleted (e : String) (src : String)
  | addTag (e t : String)
  | removeTag (e t : String)
  deriving DecidableEq, Repr

/-- Effect of one write on the remote store: INSERT appends, UPDATE replaces
the row with the matching email, the tombstone UPDATE keeps `data` and
`checksum` but sets `is_deleted`, clears the tags column and the note, tag
inserts are `ON CONFLICT DO NOTHING`, tag deletes remove the pair. -/
def applyDb (db : RemoteDB) : WriteOp → RemoteDB
  | .insertRow r => ⟨db.rows ++ [r], db.tagTbl⟩
  | .updateRow r =>
      ⟨db.rows.map fun r0 => if r0.email = r.email then r else r0, db.tagTbl⟩
  | .markDeleted e src =>
      ⟨db.rows.map fun r0 =>
          if r0.email = e then ⟨r0.email, r0.data, r0.checksum, [], none, true, src⟩ else r0,
        db.tagTbl⟩
  | .addTag e t =>
      ⟨db.rows, if (e, t) ∈ db.tagTbl then db.tagTbl else db.tagTbl ++ [(e, t)]⟩
  | .removeTag e t =>
      ⟨db.rows, db.tagTbl.filter fun p => ¬(p.1 = e ∧ p.2 = t)⟩

/-- Sequential application of the planned writes. -/
def applyDbs (db : RemoteDB) (ops : List WriteOp) : RemoteDB :=
  ops.foldl applyDb db

/-- Normalisation pass of `_prepare_tags_snapshot` over the whole local map
(the loop aborts on the first normalisation exception, like the source
loop). -/
def normaliseAccounts : List (String × Payload) → Except String (List (String × Payload))
  | [] => .ok []
  | ep :: rest => do
      let n ← normalisePayload ep.2
      let tail ← normaliseAccounts rest
      pure ((ep.1, n) :: tail)

/-- Decision of the per-account loop of `sync_file_to_db`: INSERT when the
email is absent remotely, UPDATE when the stored checksum differs or the
remote row is a tombstone, otherwise nothing. -/
def planAccount (db : RemoteDB) (src : String) (e : String) (n : Payload) : Option WriteOp :=
  match findRow db e with
  | none => some (.insertRow (canonicalRow e n src))
  | some row =>
      if row.checksum ≠ sha256Hex (serialisePayload n) || row.isDeleted then
        some (.updateRow (canonicalRow e n src))
      else none

/-- Writes of the per-account loop. -/
def phase1Ops (db : RemoteDB) (src : String) (normAccs : List (String × Payload)) :
    List WriteOp :=
  normAccs.filterMap fun en => planAccount db src en.1 en.2

/-- Writes of the tombstone loop: every remote row whose email is not local
and that is not already a tombstone is marked deleted. -/
def phase2Ops (db : RemoteDB) (src : String) (currentEmails : List String) : List WriteOp :=
  db.rows.filterMap fun r =>
    if r.email ∈ currentEmails || r.isDeleted then none
    else some (.markDeleted r.email src)

/-- Model of `_apply_tag_mutations` for one email: no-op when the sets agree,
otherwise sorted batched inserts of `target − existing` followed by sorted
batched deletes of `existing − target`. -/
def tagMutationOps (tbl : List (String × String)) (e : String) (target : List String) :
    List WriteOp :=
  let ex := tagsOf tbl e
  if ex.all (fun t => t ∈ target) && target.all (fun t => t ∈ ex) then []
  else
    ((sortBy id (target.filter fun t => t ∉ ex)).map fun t => WriteOp.addTag e t) ++
    ((sortBy id (ex.filter fun t => t ∉ target)).map fun t => WriteOp.removeTag e t)

/-- Tag reconciliation writes for the union of remote and local emails. -/
def pushTagOps (db : RemoteDB) (normAccs : List (String × Payload)) : List WriteOp :=
  let targetMap := normAccs.map fun en => (en.1, tagsTargetOf en.2)
  let allEmails := (db.rows.map (fun r => r.email) ++ normAccs.map Prod.fst).dedup
  (allEmails.map fun e => tagMutationOps db.tagTbl e ((lookupKey targetMap e).getD [])).flatten

/-- Count of accounts the push inserts. -/
def pushAdded (db : RemoteDB) (normAccs : List (String × Payload)) : Nat :=
  (normAccs.filter fun en => findRow db en.1 = none).length

/-- Count of accounts the push updates. -/
def pushUpdated (db : RemoteDB) (normAccs : List (String × Payload)) : Nat :=
  (normAccs.filter fun en =>
    match findRow db en.1 with
    | some row => row.checksum ≠ sha256Hex (serialisePayload en.2) || row.isDeleted
    | none => false).length

/-- Count of remote rows the push tombstones. -/
def pushMarkedDeleted (db : RemoteDB) (currentEmails : List String) : Nat :=
  (db.rows.filter fun r => ¬(r.email ∈ currentEmails || r.isDeleted)).length

/-- Write plan and report of `sync_file_to_db`: the push decides every write
from the state it read at the start of the transaction, so the transaction is
a pure plan applied in order (per-account writes, tombstone writes, tag
reconciliation). -/
def pushPlan (accounts : List (String × Payload)) (db : RemoteDB) (src : String) :
    Except String (List WriteOp × SyncReport) := do
  let normAccs ← normaliseAccounts accounts
  let current := normAccs.map Prod.fst
  let ops := phase1Ops db src normAccs ++ phase2Ops db src current ++ pushTagOps db normAccs
  let a := pushAdded db normAccs
  let u := pushUpdated db normAccs
  let m := pushMarkedDeleted db current
  pure (ops,
    ⟨"同步完成：新增 " ++ toString a ++ "，更新 " ++ toString u ++ "，标记删除 " ++ toString m,
      a, u, 0, 0, m⟩)

/-- Model of a successful `AccountSynchronizer.sync_file_to_db` run: the
committed remote state and the report. -/
def pushCore (accounts : List (String × Payload)) (db : RemoteDB) (src : String) :
    Except String (RemoteDB × SyncReport) := do
  let (ops, rep) ← pushPlan accounts db src
  pure (applyDbs db ops, rep)

/-- Transactional connection: the committed state other readers observe and
the pending state of the open transaction. -/
structure Conn where
  committed : RemoteDB
  pending : RemoteDB
  deriving DecidableEq, Repr

/-- Transaction commit: the pending writes become visible. -/
def commitConn (c : Conn) : Conn :=
  ⟨c.pending, c.pending⟩

/-- Transaction rollback: the pending writes are discarded. -/
def rollbackConn (c : Conn) : Conn :=
  ⟨c.committed, c.committed⟩

/-- Execution of the planned writes against the pending state; `failAt` is
the fault model (the index of the statement at which the database raises). -/
def execOpsFrom (c : Conn) (ops : List WriteOp) (failAt : Option Nat) (idx : Nat) :
    Except String Conn :=
  match ops with
  | [] => .ok c
  | op :: rest =>
      if failAt = some idx then .error "psycopg2.Error: statement failed"
      else execOpsFrom ⟨c.committed, applyDb c.pending op⟩ rest failAt (idx + 1)

/-- Model of the `try/except/commit/rollback` structure of `sync_file_to_db`:
the body plans and executes the writes and commits; any exception (a
normalisation error while planning, or a database error while executing)
triggers a rollback and is re-raised. -/
def runPushTx (accounts : List (String × Payload)) (conn : Conn) (src : String)
    (failAt : Option Nat) : Except String SyncReport × Conn :=
  match (do
      let (ops, rep) ← pushPlan accounts conn.pending src
      let c2 ← execOpsFrom conn ops failAt 0
      pure (rep, commitConn c2) : Except String (SyncReport × Conn)) with
  | .ok (rep, c2) => (.ok rep, c2)
  | .error e => (.error e, rollbackConn conn)

/-- Per-row phase of `sync_db_to_file`: combine the row with the tag relation
(the relation wins over the denormalised column), normalise, overlay the note
column, and recompute the checksum over the normalised payload. -/
def rowToRemote (tbl : List (String × String)) (row : Row) :
    Except String (String × RemoteRec) := do
  let storedTags := sortBy id (tagsOf tbl row.email)
  let tagsFromColumn := if storedTags ≠ [] then storedTags else deserialiseTags row.tagsCol
  let p0 := row.data
  let p1 :=
    if tagsFromColumn ≠ [] then setKey p0 "tags" (.arr (tagsFromColumn.map JPrim.str))
    else if hasKey p0 "tags" then p0
    else setKey p0 "tags" (.arr [])
  let n ← normalisePayload p1
  let noteFromColumn :=
    match row.noteCol with
    | none => none
    | some s => normaliseNoteText s
  let p2 :=
    match noteFromColumn with
    | some s => setKey n "note" (.prim (.str s))
    | none => n
  pure (row.email, ⟨p2, sha256Hex (serialisePayload p2), row.isDeleted⟩)

/-- Row loop of `sync_db_to_file`, building the `remote_accounts` map in row
order. -/
def pullRemotes (tbl : List (String × String)) : List Row →
    Except String (List (String × RemoteRec))
  | [] => .ok []
  | row :: rest => do
      let er ← rowToRemote tbl row
      let tail ← pullRemotes tbl rest
      pure (er :: tail)

/-- Model of `AccountSynchronizer.sync_db_to_file`: build the normalised
remote account map from the rows and merge it into the local map. -/
def pullCore (strat : String) (localAccounts : List (String × Payload)) (db : RemoteDB) :
    Except String (List (String × Payload) × SyncReport × Bool) := do
  let remotes ← pullRemotes db.tagTbl db.rows
  mergeRemoteIntoLocal strat localAccounts remotes

/-- Model of `AccountSynchronizer._normalise_conflict_strategy`: falsy input
falls back to `prefer_local`; otherwise the trimmed, lowercased value is kept
when supported and falls back to `prefer_local` with a warning when not. -/
def normaliseConflictStrategy (strategy : Option String) : String :=
  match strategy with
  | none => "prefer_local"
  | some s =>
      if s = "" then "prefer_local"
      else
        let n := asciiLower (pyStrip s)
        if n = "prefer_local" || n = "prefer_remote" then n else "prefer_local"

/-- Model of the `conflict_strategy` property: the constructor stores the
normalised configuration value and the property returns it unchanged. -/
def conflictStrategyOf (configured : Option String) : String :=
  normaliseConflictStrategy configured

end AccountsSync

namespace AccountsSync

/-- Email a write targets (used to state that writes for other emails leave a
row untouched). -/
def opEmail : WriteOp → String
  | .insertRow r => r.email
  | .updateRow r => r.email
  | .markDeleted e _ => e
  | .addTag e _ => e
  | .removeTag e _ => e

/-- Tombstoned form of a row, as the `markDeleted` UPDATE leaves it: payload
text and checksum kept, tags column and note cleared, `is_deleted` set. -/
def tombRow (src : String) (r : Row) : Row :=
  ⟨r.email, r.data, r.checksum, [], none, true, src⟩

theorem lookupKey_cons_of_ne (kv : String × α) (rest : List (String × α)) (k : String)
    (h : kv.1 ≠ k) : lookupKey (kv :: rest) k = lookupKey rest k := by
  unfold lookupKey
  rw [List.find?_cons_of_neg _ (by simp [h])]

theorem lookupKey_cons_of_eq (kv : String × α) (rest : List (String × α)) (k : String)
    (h : kv.1 = k) : lookupKey (kv :: rest) k = some kv.2 := by
  unfold lookupKey
  rw [List.find?_cons_of_pos _ (by simp [h])]
  rfl

theorem lookupKey_setKey_self (p : List (String × α)) (k : String) (v : α) :
    lookupKey (setKey p k v) k = some v := by
  induction p with
  | nil => simp [setKey, lookupKey]
  | cons kv rest ih =>
      by_cases h : kv.1 = k
      · simp only [setKey, h, if_pos]
        exact lookupKey_cons_of_eq (k, v) rest k rfl
      · simp only [setKey, h, if_neg, if_false]
        rw [lookupKey_cons_of_ne kv _ k h]
        exact ih

theorem lookupKey_setKey_ne (p : List (String × α)) (k k' : String) (v : α) (h : k' ≠ k) :
    lookupKey (setKey p k v) k' = lookupKey p k' := by
  induction p with
  | nil => simp [setKey, lookupKey, List.find?, Ne.symm h]
  | cons kv rest ih =>
      by_cases hk : kv.1 = k
      · simp only [setKey, hk, if_pos]
        rw [lookupKey_cons_of_ne (k, v) rest k' (Ne.symm h),
          lookupKey_cons_of_ne kv rest k' (by rw [hk]; exact Ne.symm h)]
      · simp only [setKey, hk, if_neg, if_false]
        by_cases hk' : kv.1 = k'
        · rw [lookupKey_cons_of_eq kv _ k' hk', lookupKey_cons_of_eq kv _ k' hk']
        · rw [lookupKey_cons_of_ne kv _ k' hk', lookupKey_cons_of_ne kv _ k' hk']
          exact ih

theorem lookupKey_popKey_ne (p : List (String × α)) (k k' : String) (h : k' ≠ k) :
    lookupKey (popKey p k) k' = lookupKey p k' := by
  induction p with
  | nil => simp [popKey]
  | cons kv rest ih =>
      by_cases hk : kv.1 = k
      · simp only [popKey, hk, if_pos]
        rw [lookupKey_cons_of_ne kv rest k' (by rw [hk]; exact Ne.symm h)]
      · simp only [popKey, hk, if_neg, if_false]
        by_cases hk' : kv.1 = k'
        · rw [lookupKey_cons_of_eq kv _ k' hk', lookupKey_cons_of_eq kv _ k' hk']
        · rw [lookupKey_cons_of_ne kv _ k' hk', lookupKey_cons_of_ne kv _ k' hk']
          exact ih

theorem setKey_self (p : List (String × α)) (k : String) (v : α)
    (h : lookupKey p k = some v) : setKey p k v = p := by
  induction p with
  | nil => simp [lookupKey] at h
  | cons kv rest ih =>
      by_cases hk : kv.1 = k
      · rw [lookupKey_cons_of_eq kv rest k hk] at h
        simp only [setKey, hk, if_pos]
        have : (k, v) = kv := Prod.ext hk.symm (by injection h with h2; exact h2.symm)
        rw [this]
      · rw [lookupKey_cons_of_ne kv rest k hk] at h
        simp only [setKey, hk, if_neg, if_false]
        rw [ih h]

theorem lookupKey_eq_some_of_mem_nodup (p : List (String × α)) (k : String) (v : α)
    (hmem : (k, v) ∈ p) (hnd : (p.map Prod.fst).Nodup) : lookupKey p k = some v := by
  induction p with
  | nil => simp at hmem
  | cons kv rest ih =>
      rw [List.map_cons] at hnd
      have hnd2 : (rest.map Prod.fst).Nodup := (List.nodup_cons.1 hnd).2
      have hhd : kv.1 ∉ rest.map Prod.fst := (List.nodup_cons.1 hnd).1
      rcases List.mem_cons.1 hmem with h | h
      · rw [← h]
        exact lookupKey_cons_of_eq (k, v) rest k rfl
      · have hk : kv.1 ≠ k := fun hq =>
          hhd (by rw [hq]; exact List.mem_map.2 ⟨(k, v), h, rfl⟩)
        rw [lookupKey_cons_of_ne kv rest k hk]
        exact ih h hnd2

theorem lookupKey_isSome_iff_hasKey (p : List (String × α)) (k : String) :
    (lookupKey p k).isSome = hasKey p k := by
  induction p with
  | nil => simp [lookupKey, hasKey]
  | cons kv rest ih =>
      by_cases hk : kv.1 = k
      · simp [lookupKey, hasKey, List.find?, hk]
      · simp [lookupKey, hasKey, List.find?, hk] at ih ⊢
        exact ih

theorem lookupKey_none_of_not_hasKey (p : List (String × α)) (k : String)
    (h : hasKey p k = false) : lookupKey p k = none := by
  have := lookupKey_isSome_iff_hasKey p k
  rw [h] at this
  exact Option.not_isSome_iff_eq_none.1 (by simp [this])

end AccountsSync

namespace AccountsSync

theorem pyStripList_eq_rdropWhile (l : List Char) :
    pyStripList l = List.rdropWhile pyIsSpace (l.dropWhile pyIsSpace) := rfl

theorem dropWhile_pyStripList (l : List Char) :
    List.dropWhile pyIsSpace (pyStripList l) = pyStripList l := by
  rw [pyStripList_eq_rdropWhile]
  rw [List.dropWhile_eq_self_iff]
  intro hl
  have hpre : List.rdropWhile pyIsSpace (l.dropWhile pyIsSpace) <+: l.dropWhile pyIsSpace :=
    List.rdropWhile_prefix _ _
  have hlen : 0 < (l.dropWhile pyIsSpace).length :=
    Nat.lt_of_lt_of_le hl hpre.length_le
  have hhead := List.dropWhile_get_zero_not pyIsSpace l hlen
  have hget : (List.rdropWhile pyIsSpace (l.dropWhile pyIsSpace)).get ⟨0, hl⟩ =
      (l.dropWhile pyIsSpace).get ⟨0, hlen⟩ := by
    have h0 := hpre.getElem hl
    simpa [List.get_eq_getElem] using h0
  rw [hget]
  exact hhead

theorem pyStripList_idem (l : List Char) : pyStripList (pyStripList l) = pyStripList l := by
  rw [pyStripList_eq_rdropWhile (pyStripList l), dropWhile_pyStripList l,
    pyStripList_eq_rdropWhile l, List.rdropWhile_idempotent]

theorem pyStrip_idem (s : String) : pyStrip (pyStrip s) = pyStrip s := by
  unfold pyStrip
  rw [show (String.mk (pyStripList s.data)).data = pyStripList s.data from rfl,
    pyStripList_idem]

end AccountsSync

namespace AccountsSync

theorem lexLt_irrefl (l : List Char) : lexLt l l = false := by
  induction l with
  | nil => rfl
  | cons a as ih => simp [lexLt, lt_irrefl, ih]

theorem lexLt_asymm (a b : List Char) (h : lexLt a b = true) : lexLt b a = false := by
  induction a generalizing b with
  | nil =>
      cases b with
      | nil => simp [lexLt] at h
      | cons c cs => simp [lexLt]
  | cons x xs ih =>
      cases b with
      | nil => simp [lexLt] at h
      | cons y ys =>
          simp only [lexLt] at h ⊢
          by_cases hxy : x < y
          · have hko : ¬y < x := lt_asymm hxy
            simp [hko, (ne_of_lt hxy).symm]
          · simp only [hxy, if_false] at h
            by_cases heq : x = y
            · subst heq
              simp only [lt_irrefl, if_false, if_pos rfl] at h ⊢
              simpa using ih _ (by simpa [hxy] using h)
            · simp [heq] at h

theorem lexLt_conn (a b : List Char) (h1 : lexLt a b = false) (h2 : lexLt b a = false) :
    a = b := by
  induction a generalizing b with
  | nil =>
      cases b with
      | nil => rfl
      | cons c cs => simp [lexLt] at h1
  | cons x xs ih =>
      cases b with
      | nil => simp [lexLt] at h2
      | cons y ys =>
          simp only [lexLt] at h1 h2
          by_cases hxy : x < y
          · simp [hxy] at h1
          · by_cases hyx : y < x
            · simp [hyx] at h2
            · have hxe : x = y := le_antisymm (not_lt.1 hyx) (not_lt.1 hxy)
              subst hxe
              simp only [lt_irrefl, if_false, if_pos rfl] at h1 h2
              rw [ih ys (by simpa using h1) (by simpa using h2)]

theorem lexLt_trans (a b c : List Char) (h1 : lexLt a b = true) (h2 : lexLt b c = true) :
    lexLt a c = true := by
  induction a generalizing b c with
  | nil =>
      cases c with
      | nil =>
          cases b with
          | nil => simp [lexLt] at h1
          | cons y ys => simp [lexLt] at h2
      | cons z zs => simp [lexLt]
  | cons x xs ih =>
      cases b with
      | nil => simp [lexLt] at h1
      | cons y ys =>
          cases c with
          | nil => simp [lexLt] at h2
          | cons z zs =>
              simp only [lexLt] at h1 h2 ⊢
              by_cases hxy : x < y
              · by_cases hyz : y < z
                · simp [lt_trans hxy hyz]
                · simp only [hyz, if_false] at h2
                  by_cases hye : y = z
                  · subst hye
                    simp [hxy]
                  · simp [hye] at h2
              · simp only [hxy, if_false] at h1
                by_cases hxe : x = y
                · subst hxe
                  simp only [if_pos rfl] at h1
                  by_cases hxz : x < z
                  · simp [hxz]
                  · simp only [hxz, if_false] at h2 ⊢
                    by_cases hze : x = z
                    · subst hze
                      simp only [if_pos rfl] at h2 ⊢
                      exact ih ys zs (by simpa using h1) (by simpa using h2)
                    · simp [hze] at h2 ⊢
                · simp [hxe] at h1

theorem strLe_total (a b : String) : strLe a b = true ∨ strLe b a = true := by
  unfold strLe strLt
  by_cases h : lexLt b.data a.data = true
  · right
    simp [lexLt_asymm _ _ h]
  · left
    simp [Bool.not_eq_true] at h
    simp [h]

theorem strLe_trans (a b c : String) (h1 : strLe a b = true) (h2 : strLe b c = true) :
    strLe a c = true := by
  unfold strLe strLt at h1 h2 ⊢
  simp only [Bool.not_eq_true'] at h1 h2 ⊢
  by_contra hc
  simp only [Bool.not_eq_false] at hc
  by_cases hba : lexLt b.data a.data = true
  · rw [hba] at h1
    simp at h1
  · by_cases hcb : lexLt c.data b.data = true
    · rw [hcb] at h2
      simp at h2
    · simp only [Bool.not_eq_true] at hba hcb
      have hab : a.data = b.data ∨ lexLt a.data b.data = true := by
        by_cases hx : lexLt a.data b.data = true
        · exact Or.inr hx
        · exact Or.inl (lexLt_conn _ _ (by simpa using hx) hba)
      have hbc : b.data = c.data ∨ lexLt b.data c.data = true := by
        by_cases hx : lexLt b.data c.data = true
        · exact Or.inr hx
        · exact Or.inl (lexLt_conn _ _ (by simpa using hx) hcb)
      rcases hab with hab | hab <;> rcases hbc with hbc | hbc
      · rw [hab, hbc] at hc
        rw [lexLt_irrefl] at hc
        exact Bool.false_ne_true hc
      · rw [hab] at hc
        rw [lexLt_asymm _ _ hbc] at hc
        exact Bool.false_ne_true hc
      · rw [← hbc] at hc
        rw [lexLt_asymm _ _ hab] at hc
        exact Bool.false_ne_true hc
      · have := lexLt_trans _ _ _ hab hbc
        rw [lexLt_asymm _ _ this] at hc
        exact Bool.false_ne_true hc

theorem strLe_antisymm (a b : String) (h1 : strLe a b = true) (h2 : strLe b a = true) :
    a = b := by
  unfold strLe strLt at h1 h2
  simp only [Bool.not_eq_true'] at h1 h2
  have h3 := lexLt_conn a.data b.data h2 h1
  cases a
  cases b
  exact congrArg String.mk h3

theorem strLe_of_not_strLe (a b : String) (h : ¬ strLe a b = true) : strLe b a = true := by
  rcases strLe_total a b with h1 | h1
  · exact absurd h1 h
  · exact h1

end AccountsSync

namespace AccountsSync

theorem ordInsertBy_perm (key : α → String) (x : α) (l : List α) :
    List.Perm (ordInsertBy key x l) (x :: l) := by
  induction l with
  | nil => simp [ordInsertBy]
  | cons y ys ih =>
      by_cases h : strLe (key x) (key y) = true
      · simp [ordInsertBy, h]
      · simp only [ordInsertBy, h, if_false]
        exact ((ih.cons y).trans (List.Perm.swap x y ys))

theorem sortBy_perm (key : α → String) (l : List α) : List.Perm (sortBy key l) l := by
  induction l with
  | nil => simp [sortBy]
  | cons x xs ih =>
      exact (ordInsertBy_perm key x (sortBy key xs)).trans (ih.cons x)

theorem mem_ordInsertBy (key : α → String) (x z : α) (l : List α) :
    z ∈ ordInsertBy key x l ↔ z = x ∨ z ∈ l := by
  rw [(ordInsertBy_perm key x l).mem_iff]
  simp

theorem pairwise_ordInsertBy (key : α → String) (x : α) (l : List α)
    (h : l.Pairwise fun a b => strLe (key a) (key b) = true) :
    (ordInsertBy key x l).Pairwise fun a b => strLe (key a) (key b) = true := by
  induction l with
  | nil => simp [ordInsertBy]
  | cons y ys ih =>
      rcases List.pairwise_cons.1 h with ⟨hy, hys⟩
      by_cases hle : strLe (key x) (key y) = true
      · simp only [ordInsertBy, hle, if_pos]
        refine List.pairwise_cons.2 ⟨?_, h⟩
        intro z hz
        rcases List.mem_cons.1 hz with hz | hz
        · rw [hz]
          exact hle
        · exact strLe_trans _ _ _ hle (hy z hz)
      · simp only [ordInsertBy, hle, if_neg, if_false]
        refine List.pairwise_cons.2 ⟨?_, ih hys⟩
        intro z hz
        rcases (mem_ordInsertBy key x z ys).1 hz with hz | hz
        · rw [hz]
          exact strLe_of_not_strLe _ _ hle
        · exact hy z hz

theorem pairwise_sortBy (key : α → String) (l : List α) :
    (sortBy key l).Pairwise fun a b => strLe (key a) (key b) = true := by
  induction l with
  | nil => simp [sortBy]
  | cons x xs ih => exact pairwise_ordInsertBy key x (sortBy key xs) ih

theorem sortBy_eq_self (key : α → String) (l : List α)
    (h : l.Pairwise fun a b => strLe (key a) (key b) = true) : sortBy key l = l := by
  induction l with
  | nil => rfl
  | cons x xs ih =>
      rcases List.pairwise_cons.1 h with ⟨hx, hxs⟩
      rw [sortBy, ih hxs]
      cases xs with
      | nil => rfl
      | cons y ys =>
          simp only [ordInsertBy, hx y (List.mem_cons_self y ys), if_pos]

theorem eq_of_perm_pairwise_nodup_keys (key : α → String) :
    ∀ (l1 l2 : List α), List.Perm l1 l2 →
    l1.Pairwise (fun a b => strLe (key a) (key b) = true) →
    l2.Pairwise (fun a b => strLe (key a) (key b) = true) →
    (l1.map key).Nodup → l1 = l2
  | [], l2, hp, _, _, _ => by simpa using hp.nil_eq
  | x :: xs, l2, hp, h1, h2, hnd => by
      cases l2 with
      | nil => exact absurd hp.symm (by simp)
      | cons y ys =>
          rcases List.pairwise_cons.1 h1 with ⟨hx, hxs⟩
          rcases List.pairwise_cons.1 h2 with ⟨hy, hys⟩
          rw [List.map_cons] at hnd
          have hnd2 : (xs.map key).Nodup := (List.nodup_cons.1 hnd).2
          have hxm : key x ∉ xs.map key := (List.nodup_cons.1 hnd).1
          have hxy : x = y := by
            have hxin : x ∈ y :: ys := hp.mem_iff.1 (List.mem_cons_self x xs)
            rcases List.mem_cons.1 hxin with h | h
            · exact h
            · have hyin : y ∈ x :: xs := hp.symm.mem_iff.1 (List.mem_cons_self y ys)
              rcases List.mem_cons.1 hyin with h' | h'
              · exact h'.symm
              · have e1 : strLe (key y) (key x) = true := hy x h
                have e2 : strLe (key x) (key y) = true := hx y h'
                have : key x = key y := strLe_antisymm _ _ e2 e1
                exact absurd (this ▸ List.mem_map.2 ⟨y, h', rfl⟩) hxm
          subst hxy
          have hp2 : List.Perm xs ys := hp.cons_inv
          rw [eq_of_perm_pairwise_nodup_keys key xs ys hp2 hxs hys hnd2]

theorem pairwise_strLt_of_le_nodup (l : List String)
    (hle : l.Pairwise fun a b => strLe a b = true) (hnd : l.Nodup) :
    l.Pairwise fun a b => strLt a b = true := by
  have hand := hle.and hnd
  refine hand.imp ?_
  intro a b hab
  rcases hab with ⟨h1, h2⟩
  by_cases h3 : strLt a b = true
  · exact h3
  · have h4 : strLe b a = true := by
      unfold strLe
      simp only [Bool.not_eq_true] at h3
      simp [h3]
    exact absurd (strLe_antisymm a b h1 h4) h2

theorem eq_of_mem_pairwise_strLt :
    ∀ (l1 l2 : List String), l1.Pairwise (fun a b => strLt a b = true) →
    l2.Pairwise (fun a b => strLt a b = true) →
    (∀ x, x ∈ l1 ↔ x ∈ l2) → l1 = l2
  | [], [], _, _, _ => rfl
  | [], y :: ys, _, _, hm => by simpa using (hm y).2 (List.mem_cons_self y ys)
  | x :: xs, [], _, _, hm => by simpa using (hm x).1 (List.mem_cons_self x xs)
  | x :: xs, y :: ys, h1, h2, hm => by
      rcases List.pairwise_cons.1 h1 with ⟨hx, hxs⟩
      rcases List.pairwise_cons.1 h2 with ⟨hy, hys⟩
      have hxy : x = y := by
        rcases List.mem_cons.1 ((hm x).1 (List.mem_cons_self x xs)) with h | h
        · exact h
        · rcases List.mem_cons.1 ((hm y).2 (List.mem_cons_self y ys)) with h' | h'
          · exact h'.symm
          · have e1 : strLt y x = true := hy x h
            have e2 : strLt x y = true := hx y h'
            have := lexLt_asymm _ _ e1
            unfold strLt at e2 this
            rw [this] at e2
            exact absurd e2 (by simp)
      subst hxy
      have hm2 : ∀ z, z ∈ xs ↔ z ∈ ys := by
        intro z
        constructor
        · intro hz
          have hzx : z ≠ x := fun he => by
            have := hx z hz
            rw [he] at this
            unfold strLt at this
            rw [lexLt_irrefl] at this
            exact Bool.false_ne_true this
          rcases List.mem_cons.1 ((hm z).1 (List.mem_cons.2 (Or.inr hz))) with h | h
          · exact absurd h hzx
          · exact h
        · intro hz
          have hzx : z ≠ x := fun he => by
            have := hy z hz
            rw [he] at this
            unfold strLt at this
            rw [lexLt_irrefl] at this
            exact Bool.false_ne_true this
          rcases List.mem_cons.1 ((hm z).2 (List.mem_cons.2 (Or.inr hz))) with h | h
          · exact absurd h hzx
          · exact h
      rw [eq_of_mem_pairwise_strLt xs ys hxs hys hm2]

end AccountsSync

namespace AccountsSync

theorem lookup_normNote_ne (p : Payload) (k : String) (h : k ≠ "note") :
    lookupKey (normNote p) k = lookupKey p k := by
  unfold normNote
  by_cases hk : hasKey p "note"
  · simp only [hk, if_pos]
    split
    · exact lookupKey_popKey_ne p "note" k h
    · split
      · exact lookupKey_popKey_ne p "note" k h
      · exact lookupKey_setKey_ne p "note" k _ h
  · simp [hk]

theorem lookup_normStatus_ne (p : Payload) (k : String) (h : k ≠ "status") :
    lookupKey (normStatus p) k = lookupKey p k := by
  unfold normStatus
  by_cases hk : hasKey p "status"
  · simp only [hk, if_pos]
    split
    · exact lookupKey_popKey_ne p "status" k h
    · exact lookupKey_setKey_ne p "status" k _ h
  · simp [hk]

theorem lookup_normStatusReason_ne (p : Payload) (k : String) (h : k ≠ "status_reason") :
    lookupKey (normStatusReason p) k = lookupKey p k := by
  unfold normStatusReason
  by_cases hk : hasKey p "status_reason"
  · simp only [hk, if_pos]
    split
    · exact lookupKey_popKey_ne p "status_reason" k h
    · exact lookupKey_setKey_ne p "status_reason" k _ h
  · simp [hk]

theorem lookup_normTokenFailures_ne (p : Payload) (k : String) (h : k ≠ "token_failures") :
    lookupKey (normTokenFailures p) k = lookupKey p k := by
  unfold normTokenFailures
  by_cases hk : hasKey p "token_failures"
  · simp only [hk, if_pos]
    split
    · exact lookupKey_popKey_ne p "token_failures" k h
    · split
      · split
        · exact lookupKey_setKey_ne p "token_failures" k _ h
        · exact lookupKey_setKey_ne p "token_failures" k _ h
      · exact lookupKey_setKey_ne p "token_failures" k _ h
    · exact lookupKey_setKey_ne p "token_failures" k _ h
    · exact lookupKey_setKey_ne p "token_failures" k _ h
    · exact lookupKey_setKey_ne p "token_failures" k _ h
    · exact lookupKey_popKey_ne p "token_failures" k h
    · exact lookupKey_setKey_ne p "token_failures" k _ h
  · simp [hk]

theorem lookup_normStatusUpdatedAt_ne (p q : Payload) (k : String)
    (hq : normStatusUpdatedAt p = .ok q) (h : k ≠ "status_updated_at") :
    lookupKey q k = lookupKey p k := by
  unfold normStatusUpdatedAt at hq
  by_cases hk : hasKey p "status_updated_at"
  · simp only [hk, if_pos] at hq
    cases hg : pyGet p "status_updated_at" with
    | none =>
        rw [hg] at hq
        injection hq with hq
        rw [← hq]
        exact lookupKey_popKey_ne p "status_updated_at" k h
    | some v =>
        rw [hg] at hq
        simp only at hq
        by_cases hss : pyStrip (pyStr v) = ""
        · rw [if_pos hss] at hq
          injection hq with hq
          rw [← hq]
          exact lookupKey_popKey_ne p "status_updated_at" k h
        · rw [if_neg hss] at hq
          cases hpf : pyParseFloat (pyStrip (pyStr v)) with
          | none =>
              rw [hpf] at hq
              injection hq with hq
              rw [← hq]
              exact lookupKey_setKey_ne p "status_updated_at" k _ h
          | some fv =>
              rw [hpf] at hq
              cases fv with
              | finite t =>
                  injection hq with hq
                  rw [← hq]
                  exact lookupKey_setKey_ne p "status_updated_at" k _ h
              | inf => exact absurd hq (by simp)
              | nan =>
                  injection hq with hq
                  rw [← hq]
                  exact lookupKey_setKey_ne p "status_updated_at" k _ h
  · simp only [hk, if_neg, if_false] at hq
    injection hq with hq
    rw [← hq]

theorem normalisePayload_destruct (p q : Payload) (h : normalisePayload p = .ok q) :
    ∃ p4, normStatusUpdatedAt (normStatus (normNote (normTags p))) = .ok p4 ∧
      q = normTokenFailures (normStatusReason p4) := by
  have h2 : Except.bind (normStatusUpdatedAt (normStatus (normNote (normTags p))))
      (fun p4 => Except.ok (normTokenFailures (normStatusReason p4))) = Except.ok q := by
    simpa [normalisePayload, Bind.bind, pure, Except.pure] using h
  cases hsu : normStatusUpdatedAt (normStatus (normNote (normTags p))) with
  | error e =>
      rw [hsu] at h2
      simp [Except.bind] at h2
  | ok p4 =>
      rw [hsu] at h2
      simp only [Except.bind] at h2
      injection h2 with h2
      exact ⟨p4, rfl, h2.symm⟩

theorem lookup_tags_normalise (p q : Payload) (h : normalisePayload p = .ok q) :
    lookupKey q "tags" = lookupKey (normTags p) "tags" := by
  rcases normalisePayload_destruct p q h with ⟨p4, hp4, hqq⟩
  rw [hqq, lookup_normTokenFailures_ne _ _ (by decide),
    lookup_normStatusReason_ne _ _ (by decide),
    lookup_normStatusUpdatedAt_ne _ _ _ hp4 (by decide),
    lookup_normStatus_ne _ _ (by decide), lookup_normNote_ne _ _ (by decide)]

end AccountsSync

namespace AccountsSync

/-- C2: the claim says the normaliser is idempotent and total (never fails).
Totality fails on the code: for the payload `{"status_updated_at": "inf"}` the
source computes `int(float("inf"))`, which raises `OverflowError`; the
handler `except (ValueError, TypeError)` does not catch it, so
`_normalise_payload` raises instead of degrading to a safe default.  The
model evaluates the normaliser at that payload to the corresponding error. -/
theorem normalisePayload_inf_overflow :
    normalisePayload [("status_updated_at", JVal.prim (.str "inf"))] =
      .error "OverflowError: cannot convert float infinity to integer" := rfl

/-- C3 (counterexample): the normalised `tags` field is not deduplicated —
the payload `{"tags": ["a", "a"]}` normalises with both copies kept, so the
claim that duplicate tag values collapse to a single occurrence is false. -/
theorem normalise_tags_duplicates_counterexample :
    normalisePayload [("tags", JVal.arr [.str "a", .str "a"])] =
      .ok [("tags", JVal.arr [.str "a", .str "a"])] ∧
    ¬ (tagsStrList [("tags", JVal.arr [.str "a", .str "a"])]).Nodup := by
  constructor
  · rfl
  · decide

/-- C3 (amended): for a list-shaped `tags` field the normalised record's tags
are exactly the trimmed non-empty entries in their original order and
multiplicity — empty strings are discarded and every kept entry is trimmed —
but duplicates are preserved (deduplication only happens in the separate
tag-set snapshot `_prepare_tags_snapshot` builds for the tag table). -/
theorem normalise_tags_trimmed_nonempty (p q : Payload) (xs : List JPrim)
    (hx : lookupKey p "tags" = some (.arr xs))
    (h : normalisePayload p = .ok q) :
    lookupKey q "tags" = some (.arr ((cleanTagPrims xs).map JPrim.str)) ∧
    ∀ s ∈ cleanTagPrims xs, pyStrip s = s ∧ s ≠ "" := by
  constructor
  · rw [lookup_tags_normalise p q h]
    unfold normTags
    rw [hx]
    exact lookupKey_setKey_self p "tags" _
  · intro s hs
    rcases List.mem_filterMap.1 hs with ⟨t, ht, heq⟩
    cases t with
    | null => simp at heq
    | bool b =>
        simp only at heq
        by_cases hz : pyStrip (pyPrimStr (JPrim.bool b)) = ""
        · rw [if_pos hz] at heq
          exact absurd heq (by simp)
        · rw [if_neg hz] at heq
          injection heq with heq
          rw [← heq]
          exact ⟨pyStrip_idem _, hz⟩
    | num n =>
        simp only at heq
        by_cases hz : pyStrip (pyPrimStr (JPrim.num n)) = ""
        · rw [if_pos hz] at heq
          exact absurd heq (by simp)
        · rw [if_neg hz] at heq
          injection heq with heq
          rw [← heq]
          exact ⟨pyStrip_idem _, hz⟩
    | str s0 =>
        simp only at heq
        by_cases hz : pyStrip (pyPrimStr (JPrim.str s0)) = ""
        · rw [if_pos hz] at heq
          exact absurd heq (by simp)
        · rw [if_neg hz] at heq
          injection heq with heq
          rw [← heq]
          exact ⟨pyStrip_idem _, hz⟩

/-- Witness for the amended C3 theorem at a concrete degenerate payload: the
input tags `[" a ", "", "a"]` normalise to `["a", "a"]` — trimmed, the empty
entry dropped, the duplicate kept. -/
theorem normalise_tags_trimmed_nonempty_witness :
    lookupKey [("tags", JVal.arr [JPrim.str "a", JPrim.str "a"])] "tags" =
      some (.arr ((cleanTagPrims [.str " a ", .str "", .str "a"]).map JPrim.str)) :=
  (normalise_tags_trimmed_nonempty
    [("tags", JVal.arr [.str " a ", .str "", .str "a"])]
    [("tags", JVal.arr [JPrim.str "a", JPrim.str "a"])]
    [.str " a ", .str "", .str "a"] rfl rfl).1

end AccountsSync

namespace AccountsSync

/-- C10: for every configured conflict-strategy value (missing, empty,
whitespace, differently cased, or unrecognised), the strategy the
synchronizer stores and `conflict_strategy` returns is exactly one of
`prefer_local` / `prefer_remote`, and any value whose trimmed lowercase form
is outside that set falls back to `prefer_local`. -/
theorem conflictStrategy_binary_fallback (cfg : Option String) :
    (conflictStrategyOf cfg = "prefer_local" ∨ conflictStrategyOf cfg = "prefer_remote") ∧
    (∀ s, cfg = some s → asciiLower (pyStrip s) ≠ "prefer_local" →
      asciiLower (pyStrip s) ≠ "prefer_remote" → conflictStrategyOf cfg = "prefer_local") := by
  constructor
  · cases cfg with
    | none => exact Or.inl rfl
    | some s =>
        unfold conflictStrategyOf normaliseConflictStrategy
        by_cases h1 : s = ""
        · simp [h1]
        · simp only [h1, if_neg, if_false]
          by_cases h2 : asciiLower (pyStrip s) = "prefer_local" ∨
              asciiLower (pyStrip s) = "prefer_remote"
          · rcases h2 with h2 | h2 <;> simp [h2]
          · push_neg at h2
            simp [h2.1, h2.2]
  · intro s hs h2 h3
    subst hs
    unfold conflictStrategyOf normaliseConflictStrategy
    by_cases h1 : s = ""
    · simp [h1]
    · simp [h1, h2, h3]

/-- Witness for C10 at a concrete unrecognised configuration value. -/
theorem conflictStrategy_binary_fallback_witness :
    conflictStrategyOf (some "  MERGE-Both ") = "prefer_local" :=
  (conflictStrategy_binary_fallback (some "  MERGE-Both ")).2
    "  MERGE-Both " rfl (by decide) (by decide)

theorem sortBy_map_keys_nodup (key : α → String) (l : List α)
    (hnd : (l.map key).Nodup) : ((sortBy key l).map key).Nodup :=
  (((sortBy_perm key l).map key).nodup_iff).2 hnd

/-- C4: two payloads that are equal as key-value maps but were assembled in
different orders (a permutation with no duplicate keys) serialise to the same
canonical text, and therefore `_checksum` produces the same digest: field
insertion order never affects record equivalence. -/
theorem serialise_checksum_order_invariant (p q : Payload)
    (hperm : List.Perm p q) (hnd : (p.map Prod.fst).Nodup) :
    serialisePayload p = serialisePayload q ∧
    checksumOf (some (serialisePayload p)) = checksumOf (some (serialisePayload q)) := by
  have hsp : List.Perm (sortBy Prod.fst p) (sortBy Prod.fst q) :=
    ((sortBy_perm Prod.fst p).trans hperm).trans (sortBy_perm Prod.fst q).symm
  have hsort : sortBy Prod.fst p = sortBy Prod.fst q :=
    eq_of_perm_pairwise_nodup_keys Prod.fst _ _ hsp
      (pairwise_sortBy Prod.fst p) (pairwise_sortBy Prod.fst q)
      (sortBy_map_keys_nodup Prod.fst p hnd)
  have hser : serialisePayload p = serialisePayload q := by
    unfold serialisePayload
    rw [hsort]
  exact ⟨hser, by rw [hser]⟩

/-- Witness for C4 at a concrete pair of field-order-permuted payloads. -/
theorem serialise_checksum_order_invariant_witness :
    serialisePayload [("b", JVal.prim (.num 1)), ("a", JVal.prim (.str "x"))] =
      serialisePayload [("a", JVal.prim (.str "x")), ("b", JVal.prim (.num 1))] :=
  (serialise_checksum_order_invariant
    [("b", JVal.prim (.num 1)), ("a", JVal.prim (.str "x"))]
    [("a", JVal.prim (.str "x")), ("b", JVal.prim (.num 1))]
    (by decide) (by decide)).1

end AccountsSync

namespace AccountsSync

end AccountsSync

namespace AccountsSync

theorem mergeTags_frame (localP remoteP : Payload) (b1 : Bool) (l1 : Payload)
    (h : mergeTagsFromRemote localP remoteP = .ok (b1, l1)) :
    ∀ k, k ≠ "tags" → lookupKey l1 k = lookupKey localP k := by
  intro k hk
  unfold mergeTagsFromRemote at h
  cases hr : pyIterPrims (tagsValueOrEmpty remoteP) with
  | error e => rw [hr] at h; simp [Bind.bind, Except.bind] at h
  | ok re =>
      rw [hr] at h
      cases hlo : pyIterPrims (tagsValueOrEmpty localP) with
      | error e => rw [hlo] at h; simp [Bind.bind, Except.bind] at h
      | ok le =>
          rw [hlo] at h
          simp only [Bind.bind, Except.bind, pure, Except.pure] at h
          by_cases hs : sortBy id (mergeCleanTags re) = sortBy id (mergeCleanTags le)
          · rw [if_pos hs] at h
            injection h with h
            rw [show l1 = localP from (congrArg Prod.snd h).symm]
          · rw [if_neg hs] at h
            injection h with h
            rw [show l1 = setKey localP "tags" (.arr ((mergeCleanTags re).map JPrim.str)) from
              (congrArg Prod.snd h).symm]
            exact lookupKey_setKey_ne localP "tags" k _ hk

theorem mergeNote_frame (localP remoteP : Payload) :
    ∀ k, k ≠ "note" →
      lookupKey (mergeNoteFromRemote localP remoteP).2 k = lookupKey localP k := by
  intro k hk
  unfold mergeNoteFromRemote
  by_cases he : normaliseNoteVal (pyGet localP "note") = normaliseNoteVal (pyGet remoteP "note")
  · simp [he]
  · simp only [he, if_neg, if_false]
    cases normaliseNoteVal (pyGet remoteP "note") with
    | none => exact lookupKey_popKey_ne localP "note" k hk
    | some s => exact lookupKey_setKey_ne localP "note" k _ hk

end AccountsSync

namespace AccountsSync

theorem mergeStatusField_frame (fk : String) (localP remoteP : Payload) (k : String)
    (hk : k ≠ fk) :
    lookupKey (mergeStatusField fk localP remoteP).2 k = lookupKey localP k := by
  unfold mergeStatusField
  by_cases hq : (!pyOptEq (pyGet localP fk) (pyGet remoteP fk)) = true
  · simp only [hq, if_pos]
    cases pyGet remoteP fk with
    | some v => exact lookupKey_setKey_ne localP fk k _ hk
    | none => rfl
  · simp only [hq, if_false, Bool.not_eq_true] at hq ⊢
    simp [hq]

theorem mergeTokenFailures_frame (localP remoteP : Payload) (k : String)
    (hk : k ≠ "token_failures") :
    lookupKey (mergeTokenFailures localP remoteP).2 k = lookupKey localP k := by
  unfold mergeTokenFailures
  by_cases hq : tokenCount (pyGet localP "token_failures") =
      tokenCount (pyGet remoteP "token_failures")
  · simp [hq]
  · simp only [ne_eq, hq, not_false_eq_true, if_pos]
    cases hv : pyGet remoteP "token_failures" with
    | none => exact lookupKey_setKey_ne localP "token_failures" k _ hk
    | some v =>
        cases v with
        | prim pr => exact lookupKey_setKey_ne localP "token_failures" k _ hk
        | arr xs => exact lookupKey_setKey_ne localP "token_failures" k _ hk
        | obj fs => exact lookupKey_setKey_ne localP "token_failures" k _ hk

theorem mergeStatus_frame (localP remoteP : Payload) (k : String)
    (h1 : k ≠ "status") (h2 : k ≠ "status_updated_at") (h3 : k ≠ "status_reason")
    (h4 : k ≠ "token_failures") :
    lookupKey (mergeStatusFromRemote localP remoteP).2 k = lookupKey localP k := by
  unfold mergeStatusFromRemote
  simp only []
  rw [mergeTokenFailures_frame _ remoteP k h4, mergeStatusField_frame _ _ remoteP k h3,
    mergeStatusField_frame _ _ remoteP k h2, mergeStatusField_frame _ _ remoteP k h1]

end AccountsSync

namespace AccountsSync

/-- C6: during pull-merge, a remote tombstone is skipped with no counter when
the email is absent locally; under `prefer_local` the local record is kept
and only `skipped` is incremented; under `prefer_remote` the local record is
deleted, `removed` is incremented and `changed` becomes true. -/
theorem mergeStep_tombstone (strat : String) (st : MergeState) (e : String) (r : RemoteRec)
    (hdel : r.isDeleted = true) :
    (lookupKey st.merged e = none → mergeStep strat st (e, r) = .ok st) ∧
    (∀ lp nl, lookupKey st.merged e = some lp → normalisePayload lp = .ok nl →
      (strat = "prefer_local" →
        mergeStep strat st (e, r) = .ok { st with skipped := st.skipped + 1 }) ∧
      (strat = "prefer_remote" →
        mergeStep strat st (e, r) =
          .ok { st with merged := popKey st.merged e,
                        removed := st.removed + 1, changed := true })) := by
  constructor
  · intro hl
    unfold mergeStep
    simp [hl, hdel, Bind.bind, Except.bind, pure, Except.pure]
  · intro lp nl hl hn
    constructor
    · intro hstrat
      unfold mergeStep
      simp [hl, hn, hdel, hstrat, Bind.bind, Except.bind, pure, Except.pure]
    · intro hstrat
      unfold mergeStep
      simp [hl, hn, hdel, hstrat, Bind.bind, Except.bind, pure, Except.pure]

/-- Witness for C6: a concrete tombstone for a present local record under
`prefer_remote` removes the record and counts it as removed. -/
theorem mergeStep_tombstone_witness :
    mergeStep "prefer_remote"
      ⟨[("a@x", [("refresh_token", JVal.prim (.str "r"))])], 0, 0, 0, 0, false⟩
      ("a@x", ⟨[], "c", true⟩) =
      .ok ⟨[], 0, 0, 1, 0, true⟩ := by
  have h := (mergeStep_tombstone "prefer_remote"
    ⟨[("a@x", [("refresh_token", JVal.prim (.str "r"))])], 0, 0, 0, 0, false⟩
    "a@x" ⟨[], "c", true⟩ rfl).2
    [("refresh_token", JVal.prim (.str "r"))]
    [("refresh_token", JVal.prim (.str "r")), ("tags", JVal.arr [])] rfl rfl
  exact (h.2 rfl).trans (by rfl)

end AccountsSync

namespace AccountsSync

theorem mergeStep_noop_aux (strat : String) (st : MergeState) (e : String)
    (r : RemoteRec) (lp nl : Payload)
    (hl : lookupKey st.merged e = some lp)
    (hn : normalisePayload lp = .ok nl)
    (hdel : r.isDeleted = false)
    (hck : sha256Hex (serialisePayload nl) = r.checksum)
    (hcrit : hasCriticalFieldDifferences e lp r.data = false) :
    mergeStep strat st (e, r) = .ok st := by
  unfold mergeStep
  simp [hl, hn, hdel, Bind.bind, Except.bind, pure, Except.pure, checksumOf, hck, hcrit]

/-- C1 (counterexample): the claim says an equal-checksum remote record is
always a no-op.  The code first re-checks `_has_critical_field_differences`
against the raw (un-normalised) local payload; for a local record whose
`status_updated_at` is `"5.0"` (which normalises to `"5"`), the checksums
agree but the raw comparison differs, so under `prefer_remote` the merge
replaces the local record and counts it as updated. -/
theorem mergeStep_equal_checksum_counterexample :
    normalisePayload
        [("client_id", JVal.prim (.str "c")), ("refresh_token", JVal.prim (.str "r")),
         ("status_updated_at", JVal.prim (.str "5.0"))] =
      .ok [("client_id", JVal.prim (.str "c")), ("refresh_token", JVal.prim (.str "r")),
           ("status_updated_at", JVal.prim (.str "5")), ("tags", JVal.arr [])] ∧
    mergeStep "prefer_remote"
      ⟨[("a@x",
          [("client_id", JVal.prim (.str "c")), ("refresh_token", JVal.prim (.str "r")),
           ("status_updated_at", JVal.prim (.str "5.0"))])], 0, 0, 0, 0, false⟩
      ("a@x",
        ⟨[("client_id", JVal.prim (.str "c")), ("refresh_token", JVal.prim (.str "r")),
          ("status_updated_at", JVal.prim (.str "5")), ("tags", JVal.arr [])],
         serialisePayload
           [("client_id", JVal.prim (.str "c")), ("refresh_token", JVal.prim (.str "r")),
            ("status_updated_at", JVal.prim (.str "5")), ("tags", JVal.arr [])],
         false⟩) =
      .ok ⟨[("a@x",
             [("client_id", JVal.prim (.str "c")), ("refresh_token", JVal.prim (.str "r")),
              ("status_updated_at", JVal.prim (.str "5")), ("tags", JVal.arr [])])],
           0, 1, 0, 0, true⟩ ∧
    ([("client_id", JVal.prim (.str "c")), ("refresh_token", JVal.prim (.str "r")),
      ("status_updated_at", JVal.prim (.str "5.0"))] : Payload) ≠
      [("client_id", JVal.prim (.str "c")), ("refresh_token", JVal.prim (.str "r")),
       ("status_updated_at", JVal.prim (.str "5")), ("tags", JVal.arr [])] := by
  refine ⟨rfl, ?_, by decide⟩
  rfl

/-- C1 (amended): for a locally present, non-tombstone remote record whose
recomputed checksum equals the local one, the merge is a no-op — the local
record and every report counter are untouched, regardless of the conflict
strategy — provided the secondary `_has_critical_field_differences`
comparison between the raw local payload and the remote payload also reports
no difference (the claim as stated omits that proviso). -/
theorem mergeStep_equal_checksum_noop (strat : String) (st : MergeState) (e : String)
    (r : RemoteRec) (lp nl : Payload)
    (hl : lookupKey st.merged e = some lp)
    (hn : normalisePayload lp = .ok nl)
    (hdel : r.isDeleted = false)
    (hck : sha256Hex (serialisePayload nl) = r.checksum)
    (hcrit : hasCriticalFieldDifferences e lp r.data = false) :
    mergeStep strat st (e, r) = .ok st :=
  mergeStep_noop_aux strat st e r lp nl hl hn hdel hck hcrit

/-- Witness for the amended C1 theorem: a normalisation-fixed local record
with an identical remote record is left untouched under any strategy. -/
theorem mergeStep_equal_checksum_noop_witness :
    mergeStep "prefer_remote"
      ⟨[("a@x",
          [("client_id", JVal.prim (.str "c")), ("refresh_token", JVal.prim (.str "r")),
           ("tags", JVal.arr [])])], 2, 3, 4, 5, false⟩
      ("a@x",
        ⟨[("client_id", JVal.prim (.str "c")), ("refresh_token", JVal.prim (.str "r")),
          ("tags", JVal.arr [])],
         serialisePayload
           [("client_id", JVal.prim (.str "c")), ("refresh_token", JVal.prim (.str "r")),
            ("tags", JVal.arr [])],
         false⟩) =
      .ok ⟨[("a@x",
             [("client_id", JVal.prim (.str "c")), ("refresh_token", JVal.prim (.str "r")),
              ("tags", JVal.arr [])])], 2, 3, 4, 5, false⟩ :=
  mergeStep_equal_checksum_noop "prefer_remote" _ "a@x" _
    [("client_id", JVal.prim (.str "c")), ("refresh_token", JVal.prim (.str "r")),
     ("tags", JVal.arr [])]
    [("client_id", JVal.prim (.str "c")), ("refresh_token", JVal.prim (.str "r")),
     ("tags", JVal.arr [])]
    rfl rfl rfl rfl (by decide)

end AccountsSync

namespace AccountsSync

/-- C7: under `prefer_local`, for a locally present non-tombstone remote
record whose checksum differs, the merge runs the three merge functions
(tags, note, status/token-failures) on the local record, counts the record as
updated exactly when one of them changed something and as skipped otherwise,
and the merged record agrees with the raw local record on every field other
than `tags`, `note`, `status`, `status_updated_at`, `status_reason` and
`token_failures` — in particular `refresh_token` and `client_id` are never
overwritten. -/
theorem mergeStep_prefer_local_diff (st : MergeState) (e : String) (r : RemoteRec)
    (lp nl l1 : Payload) (b1 : Bool)
    (hl : lookupKey st.merged e = some lp)
    (hn : normalisePayload lp = .ok nl)
    (hdel : r.isDeleted = false)
    (hck : sha256Hex (serialisePayload nl) ≠ r.checksum)
    (htags : mergeTagsFromRemote lp r.data = .ok (b1, l1)) :
    mergeStep "prefer_local" st (e, r) =
      .ok (if b1 || (mergeNoteFromRemote l1 r.data).1 ||
            (mergeStatusFromRemote (mergeNoteFromRemote l1 r.data).2 r.data).1 then
        { st with
            merged := setKey st.merged e
              (mergeStatusFromRemote (mergeNoteFromRemote l1 r.data).2 r.data).2,
            updated := st.updated + 1, changed := true }
      else { st with skipped := st.skipped + 1 }) ∧
    (∀ k, k ≠ "tags" → k ≠ "note" → k ≠ "status" → k ≠ "status_updated_at" →
      k ≠ "status_reason" → k ≠ "token_failures" →
      lookupKey (mergeStatusFromRemote (mergeNoteFromRemote l1 r.data).2 r.data).2 k =
        lookupKey lp k) := by
  constructor
  · have hcks : ¬ checksumOf (some (serialisePayload nl)) = some r.checksum := by
      simpa [checksumOf] using hck
    unfold mergeStep
    simp [hl, hn, hdel, Bind.bind, Except.bind, pure, Except.pure, hcks, htags]
    by_cases hb : (b1 = true ∨ (mergeNoteFromRemote l1 r.data).1 = true) ∨
        (mergeStatusFromRemote (mergeNoteFromRemote l1 r.data).2 r.data).1 = true
    · simp [hb, Bool.or_eq_true]
    · simp [hb, Bool.or_eq_true]
  · intro k k1 k2 k3 k4 k5 k6
    rw [mergeStatus_frame _ r.data k k3 k4 k5 k6, mergeNote_frame l1 r.data k k2,
      mergeTags_frame lp r.data b1 l1 htags k k1]

/-- Witness for C7: a concrete divergent remote record under `prefer_local`
updates the note but leaves `refresh_token` untouched. -/
theorem mergeStep_prefer_local_diff_witness :
    mergeStep "prefer_local"
      ⟨[("a@x",
          [("client_id", JVal.prim (.str "c")), ("refresh_token", JVal.prim (.str "r")),
           ("tags", JVal.arr []), ("note", JVal.prim (.str "old"))])], 0, 0, 0, 0, false⟩
      ("a@x",
        ⟨[("client_id", JVal.prim (.str "c2")), ("refresh_token", JVal.prim (.str "r2")),
          ("tags", JVal.arr []), ("note", JVal.prim (.str "new"))],
         serialisePayload
           [("client_id", JVal.prim (.str "c2")), ("refresh_token", JVal.prim (.str "r2")),
            ("tags", JVal.arr []), ("note", JVal.prim (.str "new"))],
         false⟩) =
      .ok ⟨[("a@x",
             [("client_id", JVal.prim (.str "c")), ("refresh_token", JVal.prim (.str "r")),
              ("tags", JVal.arr []), ("note", JVal.prim (.str "new"))])],
           0, 1, 0, 0, true⟩ ∧
    lookupKey
      [("client_id", JVal.prim (.str "c")), ("refresh_token", JVal.prim (.str "r")),
       ("tags", JVal.arr []), ("note", JVal.prim (.str "new"))] "refresh_token" =
      some (JVal.prim (.str "r")) := by
  have h := mergeStep_prefer_local_diff
    ⟨[("a@x",
        [("client_id", JVal.prim (.str "c")), ("refresh_token", JVal.prim (.str "r")),
         ("tags", JVal.arr []), ("note", JVal.prim (.str "old"))])], 0, 0, 0, 0, false⟩
    "a@x"
    ⟨[("client_id", JVal.prim (.str "c2")), ("refresh_token", JVal.prim (.str "r2")),
      ("tags", JVal.arr []), ("note", JVal.prim (.str "new"))],
     serialisePayload
       [("client_id", JVal.prim (.str "c2")), ("refresh_token", JVal.prim (.str "r2")),
        ("tags", JVal.arr []), ("note", JVal.prim (.str "new"))],
     false⟩
    [("client_id", JVal.prim (.str "c")), ("refresh_token", JVal.prim (.str "r")),
     ("tags", JVal.arr []), ("note", JVal.prim (.str "old"))]
    [("client_id", JVal.prim (.str "c")), ("refresh_token", JVal.prim (.str "r")),
     ("tags", JVal.arr []), ("note", JVal.prim (.str "old"))]
    [("client_id", JVal.prim (.str "c")), ("refresh_token", JVal.prim (.str "r")),
     ("tags", JVal.arr []), ("note", JVal.prim (.str "old"))]
    false rfl rfl rfl (by decide) rfl
  refine ⟨h.1.trans ?_, rfl⟩
  rfl

end AccountsSync

namespace AccountsSync

theorem execOpsFrom_ok (ops : List WriteOp) :
    ∀ (c c2 : Conn) (failAt : Option Nat) (idx : Nat),
      execOpsFrom c ops failAt idx = .ok c2 →
      c2.committed = c.committed ∧ c2.pending = applyDbs c.pending ops := by
  induction ops with
  | nil =>
      intro c c2 failAt idx h
      unfold execOpsFrom at h
      injection h with h
      rw [← h]
      exact ⟨rfl, rfl⟩
  | cons op rest ih =>
      intro c c2 failAt idx h
      unfold execOpsFrom at h
      by_cases hf : failAt = some idx
      · rw [if_pos hf] at h
        exact absurd h (by simp)
      · rw [if_neg hf] at h
        have := ih ⟨c.committed, applyDb c.pending op⟩ c2 failAt (idx + 1) h
        exact ⟨this.1, by rw [this.2]; rfl⟩

theorem execOpsFrom_fail (ops : List WriteOp) :
    ∀ (c : Conn) (k idx : Nat), idx ≤ k → k < idx + ops.length →
      execOpsFrom c ops (some k) idx = .error "psycopg2.Error: statement failed" := by
  induction ops with
  | nil =>
      intro c k idx h1 h2
      simp at h2
      omega
  | cons op rest ih =>
      intro c k idx h1 h2
      unfold execOpsFrom
      by_cases hf : k = idx
      · simp [hf]
      · rw [if_neg (by simpa using hf)]
        exact ih _ k (idx + 1) (by omega) (by simp at h2; omega)

/-- C9: the push transaction is all-or-nothing.  Whatever exception occurs
(a planning failure or a database statement failure at any index), the
handler rolls the transaction back, so the committed remote state other
readers observe is exactly the state before the push began, and the
exception is re-raised to the caller; on success the whole write plan is
committed at once. -/
theorem pushTx_atomic (accounts : List (String × Payload)) (conn : Conn) (src : String)
    (failAt : Option Nat) :
    (∀ e, (runPushTx accounts conn src failAt).1 = .error e →
        (runPushTx accounts conn src failAt).2.committed = conn.committed ∧
        (runPushTx accounts conn src failAt).2.pending = conn.committed) ∧
    (∀ rep, (runPushTx accounts conn src failAt).1 = .ok rep →
        ∃ ops, pushPlan accounts conn.pending src = .ok (ops, rep) ∧
          (runPushTx accounts conn src failAt).2.committed = applyDbs conn.pending ops) ∧
    (∀ ops rep k, pushPlan accounts conn.pending src = .ok (ops, rep) →
        failAt = some k → k < ops.length →
        (runPushTx accounts conn src failAt).1 =
          .error "psycopg2.Error: statement failed") := by
  refine ⟨?_, ?_, ?_⟩
  · intro e he
    unfold runPushTx at he ⊢
    cases hplan : pushPlan accounts conn.pending src with
    | error pe => simp [hplan, Bind.bind, Except.bind, rollbackConn]
    | ok pr =>
        cases hexec : execOpsFrom conn pr.1 failAt 0 with
        | error ee => simp [hplan, hexec, Bind.bind, Except.bind, rollbackConn]
        | ok c2 => simp [hplan, hexec, Bind.bind, Except.bind, pure, Except.pure] at he
  · intro rep hre
    unfold runPushTx at hre ⊢
    cases hplan : pushPlan accounts conn.pending src with
    | error pe => simp [hplan, Bind.bind, Except.bind] at hre
    | ok pr =>
        cases hexec : execOpsFrom conn pr.1 failAt 0 with
        | error ee => simp [hplan, hexec, Bind.bind, Except.bind] at hre
        | ok c2 =>
            have hok := execOpsFrom_ok pr.1 conn c2 failAt 0 hexec
            refine ⟨pr.1, ?_, ?_⟩
            · simp only [hplan, hexec, Bind.bind, Except.bind, pure, Except.pure] at hre
              injection hre with hre
              rw [← hre]
            · simp [hplan, hexec, Bind.bind, Except.bind, pure, Except.pure, commitConn,
                hok.2]
  · intro ops rep k hplan hfk hk
    unfold runPushTx
    have hfail := execOpsFrom_fail ops conn k 0 (Nat.zero_le k) (by simpa using hk)
    rw [hfk]
    simp [hplan, hfail, Bind.bind, Except.bind]

/-- Witness for C9: with a fault injected at the first statement, a concrete
push fails and the committed remote store is untouched. -/
theorem pushTx_atomic_witness :
    (runPushTx [("a@x", [("refresh_token", JVal.prim (.str "r")), ("tags", JVal.arr [])])]
        ⟨⟨[], []⟩, ⟨[], []⟩⟩ "manual" (some 0)).2.committed = ⟨[], []⟩ :=
  ((pushTx_atomic [("a@x", [("refresh_token", JVal.prim (.str "r")), ("tags", JVal.arr [])])]
      ⟨⟨[], []⟩, ⟨[], []⟩⟩ "manual" (some 0)).1
    "psycopg2.Error: statement failed" rfl).1

end AccountsSync

namespace AccountsSync

theorem findRow_some_email (db : RemoteDB) (x : String) (r : Row)
    (h : findRow db x = some r) : r.email = x := by
  unfold findRow at h
  have := List.find?_some h
  simpa using this

theorem find?_map_emailPreserving (rows : List Row) (f : Row → Row)
    (hf : ∀ r, (f r).email = r.email) (x : String) :
    List.find? (fun r => r.email = x) (rows.map f) =
      (List.find? (fun r => r.email = x) rows).map f := by
  induction rows with
  | nil => simp
  | cons r0 rest ih =>
      by_cases h : r0.email = x
      · rw [List.map_cons, List.find?_cons_of_pos _ (by simp [hf, h]),
          List.find?_cons_of_pos _ (by simp [h])]
        rfl
      · rw [List.map_cons, List.find?_cons_of_neg _ (by simp [hf, h]),
          List.find?_cons_of_neg _ (by simp [h])]
        exact ih

theorem findRow_updateRow (db : RemoteDB) (r : Row) (x : String) :
    findRow (applyDb db (.updateRow r)) x =
      (findRow db x).map fun r0 => if r0.email = r.email then r else r0 := by
  unfold findRow applyDb
  exact find?_map_emailPreserving db.rows _
    (fun r0 => by by_cases h : r0.email = r.email <;> simp [h]) x

theorem findRow_markDeleted (db : RemoteDB) (e src : String) (x : String) :
    findRow (applyDb db (.markDeleted e src)) x =
      (findRow db x).map fun r0 => if r0.email = e then tombRow src r0 else r0 := by
  unfold findRow applyDb
  refine (find?_map_emailPreserving db.rows _ ?_ x).trans ?_
  · intro r0
    by_cases h : r0.email = e <;> simp [h, tombRow]
  · rfl

theorem findRow_insert_of_some (db : RemoteDB) (r : Row) (x : String) (y : Row)
    (h : findRow db x = some y) : findRow (applyDb db (.insertRow r)) x = some y := by
  unfold findRow at h
  unfold findRow applyDb
  rw [List.find?_append, h]
  rfl

theorem findRow_insert_of_none (db : RemoteDB) (r : Row) (x : String)
    (h : findRow db x = none) :
    findRow (applyDb db (.insertRow r)) x = if r.email = x then some r else none := by
  unfold findRow at h
  unfold findRow applyDb
  rw [List.find?_append, h]
  by_cases he : r.email = x
  · simp [he]
  · simp [he]

theorem findRow_applyDb_tagOp_add (db : RemoteDB) (e t : String) (x : String) :
    findRow (applyDb db (.addTag e t)) x = findRow db x := rfl

theorem findRow_applyDb_tagOp_remove (db : RemoteDB) (e t : String) (x : String) :
    findRow (applyDb db (.removeTag e t)) x = findRow db x := rfl

theorem findRow_applyDb_ne (db : RemoteDB) (op : WriteOp) (x : String)
    (h : opEmail op ≠ x) : findRow (applyDb db op) x = findRow db x := by
  cases op with
  | insertRow r =>
      cases hf : findRow db x with
      | some y => exact findRow_insert_of_some db r x y hf
      | none =>
          rw [findRow_insert_of_none db r x hf, if_neg]
          exact h
  | updateRow r =>
      rw [findRow_updateRow]
      cases hf : findRow db x with
      | none => rfl
      | some y =>
          have hy := findRow_some_email db x y hf
          have hne : ¬ y.email = r.email := by
            rw [hy]
            exact fun hc => h (by simpa [opEmail] using hc.symm)
          simp [hne]
  | markDeleted e src =>
      rw [findRow_markDeleted]
      cases hf : findRow db x with
      | none => rfl
      | some y =>
          have hy := findRow_some_email db x y hf
          have hne : ¬ y.email = e := by
            rw [hy]
            exact fun hc => h (by simpa [opEmail] using hc.symm)
          simp [hne]
  | addTag e t => rfl
  | removeTag e t => rfl

theorem findRow_applyDbs_ne (ops : List WriteOp) :
    ∀ (db : RemoteDB) (x : String), (∀ op ∈ ops, opEmail op ≠ x) →
      findRow (applyDbs db ops) x = findRow db x := by
  induction ops with
  | nil => intro db x _; rfl
  | cons op rest ih =>
      intro db x h
      have h1 : opEmail op ≠ x := h op (List.mem_cons_self op rest)
      have h2 : ∀ op2 ∈ rest, opEmail op2 ≠ x := fun op2 hm => h op2 (List.mem_cons.2 (Or.inr hm))
      unfold applyDbs
      rw [List.foldl_cons]
      exact (ih (applyDb db op) x h2).trans (findRow_applyDb_ne db op x h1)

theorem tagTbl_applyDb_rowOp (db : RemoteDB) (op : WriteOp)
    (h : (match op with | .addTag _ _ => False | .removeTag _ _ => False | _ => True)) :
    (applyDb db op).tagTbl = db.tagTbl := by
  cases op with
  | insertRow r => rfl
  | updateRow r => rfl
  | markDeleted e src => rfl
  | addTag e t => exact absurd h (by simp)
  | removeTag e t => exact absurd h (by simp)

theorem rows_applyDb_tagOp (db : RemoteDB) (op : WriteOp)
    (h : (match op with | .addTag _ _ => True | .removeTag _ _ => True | _ => False)) :
    (applyDb db op).rows = db.rows := by
  cases op with
  | insertRow r => exact absurd h (by simp)
  | updateRow r => exact absurd h (by simp)
  | markDeleted e src => exact absurd h (by simp)
  | addTag e t => rfl
  | removeTag e t => rfl

end AccountsSync

namespace AccountsSync

theorem planAccount_email (db0 : RemoteDB) (src e : String) (n : Payload) (op : WriteOp)
    (h : planAccount db0 src e n = some op) : opEmail op = e := by
  unfold planAccount at h
  cases hfr : findRow db0 e with
  | none =>
      rw [hfr] at h
      injection h with h
      rw [← h]
      rfl
  | some row =>
      rw [hfr] at h
      simp only [] at h
      split at h
      · injection h with h
        rw [← h]
        rfl
      · exact absurd h (by simp)

theorem phase1Ops_emails (db0 : RemoteDB) (src : String) (accs : List (String × Payload))
    (op : WriteOp) (h : op ∈ phase1Ops db0 src accs) :
    opEmail op ∈ accs.map Prod.fst := by
  unfold phase1Ops at h
  rcases List.mem_filterMap.1 h with ⟨en, hen, hplan⟩
  rw [planAccount_email db0 src en.1 en.2 op hplan]
  exact List.mem_map.2 ⟨en, hen, rfl⟩

theorem find?_pair_none {β : Type} (l : List (String × β)) (x : String)
    (h : x ∉ l.map Prod.fst) : l.find? (fun en => en.1 = x) = none :=
  List.find?_eq_none.2 fun en hen => by
    simp only [decide_eq_true_eq]
    exact fun he => h (List.mem_map.2 ⟨en, hen, he⟩)

theorem phase1_findRow (db0 : RemoteDB) (src : String) :
    ∀ (accs : List (String × Payload)) (db : RemoteDB),
      (accs.map Prod.fst).Nodup →
      (∀ en ∈ accs, findRow db en.1 = findRow db0 en.1) →
      ∀ x, findRow (applyDbs db (phase1Ops db0 src accs)) x =
        match accs.find? (fun en => en.1 = x) with
        | some en =>
            match planAccount db0 src en.1 en.2 with
            | some (.insertRow r) => some r
            | some (.updateRow r) => some r
            | some _ => findRow db x
            | none => findRow db x
        | none => findRow db x := by
  intro accs
  induction accs with
  | nil =>
      intro db hnd hsync x
      simp [phase1Ops, applyDbs]
  | cons en0 rest ih =>
      intro db hnd hsync x
      obtain ⟨e, n⟩ := en0
      rw [List.map_cons] at hnd
      have hnd2 : (rest.map Prod.fst).Nodup := (List.nodup_cons.1 hnd).2
      have hhd : e ∉ rest.map Prod.fst := (List.nodup_cons.1 hnd).1
      have hsync0 : findRow db e = findRow db0 e :=
        hsync (e, n) (List.mem_cons_self _ _)
      have hsyncR : ∀ en ∈ rest, findRow db en.1 = findRow db0 en.1 :=
        fun en hm => hsync en (List.mem_cons.2 (Or.inr hm))
      cases hplan : planAccount db0 src e n with
      | none =>
          have hops : phase1Ops db0 src ((e, n) :: rest) = phase1Ops db0 src rest := by
            unfold phase1Ops
            rw [List.filterMap_cons]
            simp [hplan]
          rw [hops]
          by_cases hex : e = x
          · subst hex
            rw [List.find?_cons_of_pos _ (by simp)]
            simp only [hplan]
            rw [ih db hnd2 hsyncR e, find?_pair_none rest e hhd]
          · rw [List.find?_cons_of_neg _ (by simp [hex])]
            exact ih db hnd2 hsyncR x
      | some op =>
          have hoe : opEmail op = e := planAccount_email db0 src e n op hplan
          have hops : phase1Ops db0 src ((e, n) :: rest) = op :: phase1Ops db0 src rest := by
            unfold phase1Ops
            rw [List.filterMap_cons]
            simp [hplan]
          rw [hops]
          have happ : applyDbs db (op :: phase1Ops db0 src rest) =
              applyDbs (applyDb db op) (phase1Ops db0 src rest) := by
            unfold applyDbs
            rw [List.foldl_cons]
          rw [happ]
          have hsyncR2 : ∀ en ∈ rest, findRow (applyDb db op) en.1 = findRow db0 en.1 := by
            intro en hm
            have hne : opEmail op ≠ en.1 := by
              rw [hoe]
              exact fun he => hhd (he ▸ List.mem_map.2 ⟨en, hm, rfl⟩)
            rw [findRow_applyDb_ne db op en.1 hne]
            exact hsyncR en hm
          by_cases hex : e = x
          · subst hex
            rw [List.find?_cons_of_pos _ (by simp)]
            simp only [hplan]
            rw [ih (applyDb db op) hnd2 hsyncR2 e, find?_pair_none rest e hhd]
            simp only []
            unfold planAccount at hplan
            cases hfr0 : findRow db0 e with
            | none =>
                rw [hfr0] at hplan
                simp only [] at hplan
                injection hplan with hplan
                rw [← hplan, findRow_insert_of_none db _ e (hsync0.trans hfr0)]
                simp [canonicalRow]
            | some row =>
                rw [hfr0] at hplan
                simp only [] at hplan
                split at hplan
                · injection hplan with hplan
                  rw [← hplan, findRow_updateRow, hsync0.trans hfr0]
                  have hre : row.email = e := findRow_some_email db0 e row hfr0
                  simp [hre, canonicalRow]
                · exact absurd hplan (by simp)
          · rw [List.find?_cons_of_neg _ (by simp [hex])]
            have hfrx : findRow (applyDb db op) x = findRow db x :=
              findRow_applyDb_ne db op x (by rw [hoe]; exact hex)
            rw [ih (applyDb db op) hnd2 hsyncR2 x, hfrx]

end AccountsSync

namespace AccountsSync

theorem phase2_findRow (src : String) (current : List String) :
    ∀ (rows : List Row) (db : RemoteDB),
      (rows.map Row.email).Nodup →
      ∀ x, findRow (applyDbs db (rows.filterMap fun r =>
          if r.email ∈ current || r.isDeleted then none
          else some (.markDeleted r.email src))) x =
        match rows.find? (fun r => r.email = x) with
        | some r0 =>
            if r0.email ∈ current ∨ r0.isDeleted = true then findRow db x
            else (findRow db x).map (tombRow src)
        | none => findRow db x := by
  intro rows
  induction rows with
  | nil =>
      intro db hnd x
      simp [applyDbs]
  | cons r0 rest ih =>
      intro db hnd x
      rw [List.map_cons] at hnd
      have hnd2 : (rest.map Row.email).Nodup := (List.nodup_cons.1 hnd).2
      have hhd : r0.email ∉ rest.map Row.email := (List.nodup_cons.1 hnd).1
      rw [List.filterMap_cons]
      by_cases hskip : r0.email ∈ current ∨ r0.isDeleted = true
      · have hcond : (decide (r0.email ∈ current) || r0.isDeleted) = true := by
          rcases hskip with h | h <;> simp [h]
        rw [if_pos (by simpa using hcond)]
        by_cases hex : r0.email = x
        · rw [List.find?_cons_of_pos _ (by simp [hex])]
          simp only [if_pos hskip]
          rw [ih db hnd2 x]
          have hfind : rest.find? (fun r => r.email = x) = none := by
            refine List.find?_eq_none.2 fun r hm => ?_
            simp only [decide_eq_true_eq]
            exact fun he => hhd (hex ▸ he ▸ List.mem_map.2 ⟨r, hm, rfl⟩)
          rw [hfind]
        · rw [List.find?_cons_of_neg _ (by simp [hex])]
          exact ih db hnd2 x
      · have hcond : ¬ ((decide (r0.email ∈ current) || r0.isDeleted) = true) := by
          simp only [Bool.or_eq_true, decide_eq_true_eq]
          exact hskip
        rw [if_neg (by simpa using hcond)]
        have happ : applyDbs db (WriteOp.markDeleted r0.email src ::
            (rest.filterMap fun r =>
              if r.email ∈ current || r.isDeleted then none
              else some (.markDeleted r.email src))) =
            applyDbs (applyDb db (.markDeleted r0.email src)) (rest.filterMap fun r =>
              if r.email ∈ current || r.isDeleted then none
              else some (.markDeleted r.email src)) := by
          unfold applyDbs
          rw [List.foldl_cons]
        rw [happ, ih (applyDb db (.markDeleted r0.email src)) hnd2 x]
        by_cases hex : r0.email = x
        · rw [List.find?_cons_of_pos _ (by simp [hex])]
          simp only [if_neg hskip]
          have hfind : rest.find? (fun r => r.email = x) = none := by
            refine List.find?_eq_none.2 fun r hm => ?_
            simp only [decide_eq_true_eq]
            exact fun he => hhd (hex ▸ he ▸ List.mem_map.2 ⟨r, hm, rfl⟩)
          rw [hfind]
          rw [findRow_markDeleted]
          cases hf : findRow db x with
          | none => rfl
          | some y =>
              have hy := findRow_some_email db x y hf
              simp [hy, hex]
        · rw [List.find?_cons_of_neg _ (by simp [hex])]
          have hfrx : findRow (applyDb db (.markDeleted r0.email src)) x = findRow db x :=
            findRow_applyDb_ne db _ x (by simpa [opEmail] using hex)
          rw [hfrx]

end AccountsSync

namespace AccountsSync

theorem applyDbs_append (db : RemoteDB) (l1 l2 : List WriteOp) :
    applyDbs db (l1 ++ l2) = applyDbs (applyDbs db l1) l2 := by
  unfold applyDbs
  exact List.foldl_append applyDb db l1 l2

theorem mem_tagTbl_addTag (db : RemoteDB) (e u x t : String) :
    ((x, t) ∈ (applyDb db (.addTag e u)).tagTbl) ↔
      ((x, t) ∈ db.tagTbl ∨ (x = e ∧ t = u)) := by
  unfold applyDb
  by_cases hm : (e, u) ∈ db.tagTbl
  · simp only [hm, if_pos]
    constructor
    · exact Or.inl
    · intro h
      rcases h with h | ⟨h1, h2⟩
      · exact h
      · rw [h1, h2]
        exact hm
  · simp only [hm, if_neg, if_false]
    rw [List.mem_append]
    constructor
    · intro h
      rcases h with h | h
      · exact Or.inl h
      · simp at h
        exact Or.inr ⟨h.1, h.2⟩
    · intro h
      rcases h with h | ⟨h1, h2⟩
      · exact Or.inl h
      · exact Or.inr (by simp [h1, h2])

theorem mem_tagTbl_removeTag (db : RemoteDB) (e u x t : String) :
    ((x, t) ∈ (applyDb db (.removeTag e u)).tagTbl) ↔
      ((x, t) ∈ db.tagTbl ∧ ¬(x = e ∧ t = u)) := by
  unfold applyDb
  rw [List.mem_filter]
  constructor
  · intro h
    refine ⟨h.1, ?_⟩
    have := h.2
    simp only [decide_not, Bool.not_eq_true', decide_eq_false_iff_not] at this
    simpa using this
  · intro h
    refine ⟨h.1, ?_⟩
    simp only [decide_not, Bool.not_eq_true', decide_eq_false_iff_not]
    simpa using h.2

theorem mem_tagTbl_addList (e : String) (ts : List String) :
    ∀ (db : RemoteDB) (x t : String),
      ((x, t) ∈ (applyDbs db (ts.map fun u => WriteOp.addTag e u)).tagTbl) ↔
        ((x, t) ∈ db.tagTbl ∨ (x = e ∧ t ∈ ts)) := by
  induction ts with
  | nil =>
      intro db x t
      simp [applyDbs]
  | cons u rest ih =>
      intro db x t
      rw [List.map_cons]
      have happ : applyDbs db (WriteOp.addTag e u :: rest.map fun w => WriteOp.addTag e w) =
          applyDbs (applyDb db (.addTag e u)) (rest.map fun w => WriteOp.addTag e w) := by
        unfold applyDbs
        rw [List.foldl_cons]
      rw [happ, ih (applyDb db (.addTag e u)) x t, mem_tagTbl_addTag]
      constructor
      · intro h
        rcases h with (h | ⟨h1, h2⟩) | ⟨h1, h2⟩
        · exact Or.inl h
        · exact Or.inr ⟨h1, by simp [h2]⟩
        · exact Or.inr ⟨h1, by simp [h2]⟩
      · intro h
        rcases h with h | ⟨h1, h2⟩
        · exact Or.inl (Or.inl h)
        · rcases List.mem_cons.1 h2 with h2 | h2
          · exact Or.inl (Or.inr ⟨h1, h2⟩)
          · exact Or.inr ⟨h1, h2⟩

theorem mem_tagTbl_removeList (e : String) (ts : List String) :
    ∀ (db : RemoteDB) (x t : String),
      ((x, t) ∈ (applyDbs db (ts.map fun u => WriteOp.removeTag e u)).tagTbl) ↔
        ((x, t) ∈ db.tagTbl ∧ ¬(x = e ∧ t ∈ ts)) := by
  induction ts with
  | nil =>
      intro db x t
      simp [applyDbs]
  | cons u rest ih =>
      intro db x t
      rw [List.map_cons]
      have happ : applyDbs db (WriteOp.removeTag e u :: rest.map fun w => WriteOp.removeTag e w) =
          applyDbs (applyDb db (.removeTag e u)) (rest.map fun w => WriteOp.removeTag e w) := by
        unfold applyDbs
        rw [List.foldl_cons]
      rw [happ, ih (applyDb db (.removeTag e u)) x t, mem_tagTbl_removeTag]
      constructor
      · intro h
        refine ⟨h.1.1, ?_⟩
        intro hc
        rcases List.mem_cons.1 hc.2 with h2 | h2
        · exact h.1.2 ⟨hc.1, h2⟩
        · exact h.2 ⟨hc.1, h2⟩
      · intro h
        refine ⟨⟨h.1, ?_⟩, ?_⟩
        · exact fun hc => h.2 ⟨hc.1, by simp [hc.2]⟩
        · exact fun hc => h.2 ⟨hc.1, List.mem_cons.2 (Or.inr hc.2)⟩

theorem tagsOf_mem (tbl : List (String × String)) (e t : String) :
    (t ∈ tagsOf tbl e) ↔ ((e, t) ∈ tbl) := by
  unfold tagsOf
  rw [List.mem_dedup, List.mem_map]
  constructor
  · intro h
    rcases h with ⟨⟨a, b⟩, hmem, hsnd⟩
    have := List.mem_filter.1 hmem
    simp only [decide_eq_true_eq] at this
    have ha : a = e := this.2
    have hb : b = t := hsnd
    rw [← ha, ← hb]
    exact this.1
  · intro h
    exact ⟨(e, t), List.mem_filter.2 ⟨h, by simp⟩, rfl⟩

end AccountsSync

namespace AccountsSync

theorem mem_sortBy (key : α → String) (l : List α) (x : α) :
    x ∈ sortBy key l ↔ x ∈ l :=
  (sortBy_perm key l).mem_iff

theorem tagMutationOps_mem (tbl0 : List (String × String)) (e : String) (target : List String)
    (db : RemoteDB) (hdb : ∀ t, ((e, t) ∈ db.tagTbl) ↔ ((e, t) ∈ tbl0)) :
    ∀ x t, ((x, t) ∈ (applyDbs db (tagMutationOps tbl0 e target)).tagTbl) ↔
      (if x = e then t ∈ target else (x, t) ∈ db.tagTbl) := by
  intro x t
  unfold tagMutationOps
  by_cases hset : (tagsOf tbl0 e).all (fun u => u ∈ target) && target.all (fun u => u ∈ tagsOf tbl0 e)
  · rw [if_pos (by simpa using hset)]
    simp only [applyDbs, List.foldl_nil]
    simp only [Bool.and_eq_true, List.all_eq_true, decide_eq_true_eq] at hset
    by_cases hx : x = e
    · subst hx
      rw [if_pos rfl, hdb t, ← tagsOf_mem tbl0 x t]
      constructor
      · exact fun h => hset.1 t h
      · intro h
        by_contra hc
        exact hc (hset.2 t h)
    · rw [if_neg hx]
  · rw [if_neg (by simpa using hset)]
    rw [applyDbs_append, mem_tagTbl_removeList, mem_tagTbl_addList]
    by_cases hx : x = e
    · subst hx
      rw [if_pos rfl]
      rw [mem_sortBy, mem_sortBy]
      have hex : ((x, t) ∈ db.tagTbl) ↔ (t ∈ tagsOf tbl0 x) := by
        rw [hdb t, tagsOf_mem]
      by_cases h1 : t ∈ tagsOf tbl0 x <;> by_cases h2 : t ∈ target
      · simp [hex, h1, h2, List.mem_filter]
      · simp [hex, h1, h2, List.mem_filter]
      · simp [hex, h1, h2, List.mem_filter]
      · simp [hex, h1, h2, List.mem_filter]
    · rw [if_neg hx]
      simp [hx, List.mem_filter]

theorem tagOpsFold_mem (tbl0 : List (String × String)) (targetOf : String → List String) :
    ∀ (emails : List String) (db : RemoteDB),
      emails.Nodup →
      (∀ e ∈ emails, ∀ t, ((e, t) ∈ db.tagTbl) ↔ ((e, t) ∈ tbl0)) →
      ∀ x t,
        ((x, t) ∈ (applyDbs db
            ((emails.map fun e => tagMutationOps tbl0 e (targetOf e)).flatten)).tagTbl) ↔
          (if x ∈ emails then t ∈ targetOf x else (x, t) ∈ db.tagTbl) := by
  intro emails
  induction emails with
  | nil =>
      intro db hnd hdb x t
      simp [applyDbs]
  | cons e rest ih =>
      intro db hnd hdb x t
      have hnd2 : rest.Nodup := (List.nodup_cons.1 hnd).2
      have hhd : e ∉ rest := (List.nodup_cons.1 hnd).1
      rw [List.map_cons, List.flatten_cons, applyDbs_append]
      have hstep := tagMutationOps_mem tbl0 e (targetOf e) db
        (fun u => hdb e (List.mem_cons_self e rest) u)
      have hdb2 : ∀ e2 ∈ rest, ∀ u,
          ((e2, u) ∈ (applyDbs db (tagMutationOps tbl0 e (targetOf e))).tagTbl) ↔
            ((e2, u) ∈ tbl0) := by
        intro e2 hm u
        rw [hstep e2 u, if_neg (fun hc : e2 = e => hhd (hc ▸ hm))]
        exact hdb e2 (List.mem_cons.2 (Or.inr hm)) u
      rw [ih (applyDbs db (tagMutationOps tbl0 e (targetOf e))) hnd2 hdb2 x t]
      by_cases hx : x = e
      · subst hx
        rw [if_neg (fun hc => hhd hc), if_pos (List.mem_cons_self x rest)]
        rw [hstep x t, if_pos rfl]
      · by_cases hxr : x ∈ rest
        · rw [if_pos hxr, if_pos (List.mem_cons.2 (Or.inr hxr))]
        · rw [if_neg hxr, if_neg (by simp [hx, hxr]), hstep x t, if_neg hx]

end AccountsSync

namespace AccountsSync

theorem tagTbl_phase1 (db0 : RemoteDB) (src : String) (normAccs : List (String × Payload)) :
    ∀ db : RemoteDB, (applyDbs db (phase1Ops db0 src normAccs)).tagTbl = db.tagTbl := by
  induction normAccs with
  | nil => intro db; rfl
  | cons en rest ih =>
      intro db
      unfold phase1Ops
      rw [List.filterMap_cons]
      cases hplan : planAccount db0 src en.1 en.2 with
      | none => exact ih db
      | some op =>
          have h1 : applyDbs db (op :: rest.filterMap fun en2 => planAccount db0 src en2.1 en2.2) =
              applyDbs (applyDb db op) (rest.filterMap fun en2 => planAccount db0 src en2.1 en2.2) := by
            unfold applyDbs
            rw [List.foldl_cons]
          rw [h1]
          have h2 := ih (applyDb db op)
          unfold phase1Ops at h2
          rw [h2]
          unfold planAccount at hplan
          cases hfr : findRow db0 en.1 with
          | none =>
              rw [hfr] at hplan
              simp only [] at hplan
              injection hplan with hplan
              rw [← hplan]
              rfl
          | some row =>
              rw [hfr] at hplan
              simp only [] at hplan
              split at hplan
              · injection hplan with hplan
                rw [← hplan]
                rfl
              · exact absurd hplan (by simp)

theorem tagTbl_phase2 (src : String) (current : List String) (rows : List Row) :
    ∀ db : RemoteDB,
      (applyDbs db (rows.filterMap fun r =>
        if r.email ∈ current || r.isDeleted then none
        else some (.markDeleted r.email src))).tagTbl = db.tagTbl := by
  induction rows with
  | nil => intro db; rfl
  | cons r0 rest ih =>
      intro db
      rw [List.filterMap_cons]
      by_cases hc : (decide (r0.email ∈ current) || r0.isDeleted) = true
      · rw [if_pos (by simpa using hc)]
        exact ih db
      · rw [if_neg (by simpa using hc)]
        have h1 : applyDbs db (WriteOp.markDeleted r0.email src :: rest.filterMap fun r =>
            if r.email ∈ current || r.isDeleted then none
            else some (.markDeleted r.email src)) =
            applyDbs (applyDb db (.markDeleted r0.email src)) (rest.filterMap fun r =>
              if r.email ∈ current || r.isDeleted then none
              else some (.markDeleted r.email src)) := by
          unfold applyDbs
          rw [List.foldl_cons]
        rw [h1, ih]
        rfl

theorem rows_tagOpsFold (tbl0 : List (String × String)) (targetOf : String → List String)
    (emails : List String) :
    ∀ db : RemoteDB,
      (applyDbs db ((emails.map fun e => tagMutationOps tbl0 e (targetOf e)).flatten)).rows =
        db.rows := by
  induction emails with
  | nil => intro db; rfl
  | cons e rest ih =>
      intro db
      rw [List.map_cons, List.flatten_cons, applyDbs_append, ih]
      unfold tagMutationOps
      by_cases hset : (tagsOf tbl0 e).all (fun u => u ∈ targetOf e) &&
          (targetOf e).all (fun u => u ∈ tagsOf tbl0 e)
      · rw [if_pos (by simpa using hset)]
        rfl
      · rw [if_neg (by simpa using hset)]
        rw [applyDbs_append]
        have hadd : ∀ (ts : List String) (db2 : RemoteDB),
            (applyDbs db2 (ts.map fun u => WriteOp.addTag e u)).rows = db2.rows := by
          intro ts
          induction ts with
          | nil => intro db2; rfl
          | cons u urest uih =>
              intro db2
              rw [List.map_cons]
              have h1 : applyDbs db2 (WriteOp.addTag e u :: urest.map fun w => WriteOp.addTag e w) =
                  applyDbs (applyDb db2 (.addTag e u)) (urest.map fun w => WriteOp.addTag e w) := by
                unfold applyDbs
                rw [List.foldl_cons]
              rw [h1, uih]
              rfl
        have hrem : ∀ (ts : List String) (db2 : RemoteDB),
            (applyDbs db2 (ts.map fun u => WriteOp.removeTag e u)).rows = db2.rows := by
          intro ts
          induction ts with
          | nil => intro db2; rfl
          | cons u urest uih =>
              intro db2
              rw [List.map_cons]
              have h1 : applyDbs db2 (WriteOp.removeTag e u ::
                  urest.map fun w => WriteOp.removeTag e w) =
                  applyDbs (applyDb db2 (.removeTag e u)) (urest.map fun w => WriteOp.removeTag e w) := by
                unfold applyDbs
                rw [List.foldl_cons]
              rw [h1, uih]
              rfl
        rw [hrem, hadd]

theorem rows_emails_applyDb (db : RemoteDB) (op : WriteOp) :
    (applyDb db op).rows.map Row.email = db.rows.map Row.email ++
      (match op with | .insertRow r => [r.email] | _ => []) := by
  cases op with
  | insertRow r => simp [applyDb]
  | updateRow r =>
      simp only [applyDb, List.map_map, List.append_nil]
      refine List.map_congr_left fun r0 _ => ?_
      by_cases h : r0.email = r.email <;> simp [h]
  | markDeleted e src =>
      simp only [applyDb, List.map_map, List.append_nil]
      refine List.map_congr_left fun r0 _ => ?_
      by_cases h : r0.email = e <;> simp [h, tombRow]
  | addTag e t => simp [applyDb]
  | removeTag e t => simp [applyDb]

theorem rows_emails_applyDbs (ops : List WriteOp) :
    ∀ db : RemoteDB,
      (applyDbs db ops).rows.map Row.email = db.rows.map Row.email ++
        ops.filterMap (fun op => match op with | .insertRow r => some r.email | _ => none) := by
  induction ops with
  | nil => intro db; simp [applyDbs]
  | cons op rest ih =>
      intro db
      have h1 : applyDbs db (op :: rest) = applyDbs (applyDb db op) rest := by
        unfold applyDbs
        rw [List.foldl_cons]
      rw [h1, ih, rows_emails_applyDb, List.filterMap_cons]
      cases op with
      | insertRow r => simp
      | updateRow r => simp
      | markDeleted e src => simp
      | addTag e t => simp
      | removeTag e t => simp

theorem find?_row_of_mem_nodup :
    ∀ (rows : List Row) (r : Row), r ∈ rows → (rows.map Row.email).Nodup →
      List.find? (fun r2 => r2.email = r.email) rows = some r := by
  intro rows
  induction rows with
  | nil =>
      intro r hmem _
      simp at hmem
  | cons r0 rest ih =>
      intro r hmem hnd
      rw [List.map_cons] at hnd
      have hnd2 : (rest.map Row.email).Nodup := (List.nodup_cons.1 hnd).2
      have hhd : r0.email ∉ rest.map Row.email := (List.nodup_cons.1 hnd).1
      rcases List.mem_cons.1 hmem with h | h
      · rw [h]
        rw [List.find?_cons_of_pos _ (by simp)]
      · have hne : r0.email ≠ r.email :=
          fun he => hhd (he ▸ List.mem_map.2 ⟨r, h, rfl⟩)
        rw [List.find?_cons_of_neg _ (by simpa using hne)]
        exact ih r h hnd2

theorem findRow_of_mem_nodup (db : RemoteDB) (r : Row)
    (hmem : r ∈ db.rows) (hnd : (db.rows.map Row.email).Nodup) :
    findRow db r.email = some r :=
  find?_row_of_mem_nodup db.rows r hmem hnd

end AccountsSync

namespace AccountsSync

theorem find?_pair_of_mem_nodup {β : Type} (l : List (String × β)) (k : String) (v : β)
    (hmem : (k, v) ∈ l) (hnd : (l.map Prod.fst).Nodup) :
    l.find? (fun en => en.1 = k) = some (k, v) := by
  induction l with
  | nil => simp at hmem
  | cons kv rest ih =>
      rw [List.map_cons] at hnd
      have hnd2 : (rest.map Prod.fst).Nodup := (List.nodup_cons.1 hnd).2
      have hhd : kv.1 ∉ rest.map Prod.fst := (List.nodup_cons.1 hnd).1
      rcases List.mem_cons.1 hmem with h | h
      · rw [← h]
        rw [List.find?_cons_of_pos _ (by simp)]
      · have hne : kv.1 ≠ k :=
          fun he => hhd (he ▸ List.mem_map.2 ⟨(k, v), h, rfl⟩)
        rw [List.find?_cons_of_neg _ (by simpa using hne)]
        exact ih h hnd2

theorem normaliseAccounts_keys :
    ∀ (accounts normAccs : List (String × Payload)),
      normaliseAccounts accounts = .ok normAccs →
      normAccs.map Prod.fst = accounts.map Prod.fst := by
  intro accounts
  induction accounts with
  | nil =>
      intro normAccs h
      unfold normaliseAccounts at h
      injection h with h
      rw [← h]
  | cons ep rest ih =>
      intro normAccs h
      unfold normaliseAccounts at h
      cases hn : normalisePayload ep.2 with
      | error e => rw [hn] at h; simp [Bind.bind, Except.bind] at h
      | ok n =>
          rw [hn] at h
          cases ht : normaliseAccounts rest with
          | error e => rw [ht] at h; simp [Bind.bind, Except.bind] at h
          | ok tail =>
              rw [ht] at h
              simp only [Bind.bind, Except.bind, pure, Except.pure] at h
              injection h with h
              rw [← h, List.map_cons, List.map_cons, ih tail ht]

theorem normaliseAccounts_mem :
    ∀ (accounts normAccs : List (String × Payload)),
      normaliseAccounts accounts = .ok normAccs →
      ∀ en ∈ normAccs, ∃ p, (en.1, p) ∈ accounts ∧ normalisePayload p = .ok en.2 := by
  intro accounts
  induction accounts with
  | nil =>
      intro normAccs h en hen
      unfold normaliseAccounts at h
      injection h with h
      rw [← h] at hen
      simp at hen
  | cons ep rest ih =>
      intro normAccs h en hen
      unfold normaliseAccounts at h
      cases hn : normalisePayload ep.2 with
      | error e => rw [hn] at h; simp [Bind.bind, Except.bind] at h
      | ok n =>
          rw [hn] at h
          cases ht : normaliseAccounts rest with
          | error e => rw [ht] at h; simp [Bind.bind, Except.bind] at h
          | ok tail =>
              rw [ht] at h
              simp only [Bind.bind, Except.bind, pure, Except.pure] at h
              injection h with h
              rw [← h] at hen
              rcases List.mem_cons.1 hen with hcase | hcase
              · refine ⟨ep.2, ?_, ?_⟩
                · rw [hcase]
                  exact List.mem_cons.2 (Or.inl rfl)
                · rw [hcase]
                  exact hn
              · rcases ih tail ht en hcase with ⟨p, hp1, hp2⟩
                exact ⟨p, List.mem_cons.2 (Or.inr hp1), hp2⟩

theorem pushCore_destruct (accounts : List (String × Payload)) (db : RemoteDB) (src : String)
    (db2 : RemoteDB) (rep : SyncReport)
    (h : pushCore accounts db src = .ok (db2, rep)) :
    ∃ normAccs, normaliseAccounts accounts = .ok normAccs ∧
      db2 = applyDbs db (phase1Ops db src normAccs ++
        phase2Ops db src (normAccs.map Prod.fst) ++ pushTagOps db normAccs) ∧
      rep = ⟨"同步完成：新增 " ++ toString (pushAdded db normAccs) ++ "，更新 " ++
          toString (pushUpdated db normAccs) ++ "，标记删除 " ++
          toString (pushMarkedDeleted db (normAccs.map Prod.fst)),
        pushAdded db normAccs, pushUpdated db normAccs, 0, 0,
        pushMarkedDeleted db (normAccs.map Prod.fst)⟩ := by
  unfold pushCore pushPlan at h
  cases hn : normaliseAccounts accounts with
  | error e => rw [hn] at h; simp [Bind.bind, Except.bind] at h
  | ok normAccs =>
      rw [hn] at h
      simp only [Bind.bind, Except.bind, pure, Except.pure] at h
      refine ⟨normAccs, rfl, ?_, ?_⟩
      · injection h with h
        exact (congrArg Prod.fst h).symm
      · injection h with h
        exact (congrArg Prod.snd h).symm

theorem findRow_eq_of_rows_eq (db1 db2 : RemoteDB) (h : db1.rows = db2.rows) (x : String) :
    findRow db1 x = findRow db2 x := by
  unfold findRow
  rw [h]

end AccountsSync

namespace AccountsSync

theorem pushCore_findRow (accounts : List (String × Payload)) (db : RemoteDB) (src : String)
    (db2 : RemoteDB) (rep : SyncReport) (normAccs : List (String × Payload))
    (hN : normaliseAccounts accounts = .ok normAccs)
    (h : pushCore accounts db src = .ok (db2, rep))
    (hndA : (accounts.map Prod.fst).Nodup)
    (hndR : (db.rows.map Row.email).Nodup) (x : String) :
    findRow db2 x =
      match normAccs.find? (fun en => en.1 = x) with
      | some en =>
          match findRow db x with
          | none => some (canonicalRow en.1 en.2 src)
          | some row =>
              if row.checksum ≠ sha256Hex (serialisePayload en.2) ∨ row.isDeleted = true then
                some (canonicalRow en.1 en.2 src)
              else some row
      | none =>
          match findRow db x with
          | some row => if row.isDeleted = true then some row else some (tombRow src row)
          | none => none := by
  have hndN : (normAccs.map Prod.fst).Nodup := by
    rw [normaliseAccounts_keys accounts normAccs hN]
    exact hndA
  rcases pushCore_destruct accounts db src db2 rep h with ⟨normAccs2, hN2, hdb2, hrep⟩
  rw [hN] at hN2
  injection hN2 with hN2
  subst hN2
  rw [hdb2, applyDbs_append, applyDbs_append]
  have hrows3 : (applyDbs (applyDbs (applyDbs db (phase1Ops db src normAccs))
      (phase2Ops db src (normAccs.map Prod.fst))) (pushTagOps db normAccs)).rows =
      (applyDbs (applyDbs db (phase1Ops db src normAccs))
        (phase2Ops db src (normAccs.map Prod.fst))).rows := by
    unfold pushTagOps
    exact rows_tagOpsFold db.tagTbl _ _ _
  rw [findRow_eq_of_rows_eq _ _ hrows3 x]
  have hph2 := phase2_findRow src (normAccs.map Prod.fst) db.rows
    (applyDbs db (phase1Ops db src normAccs)) hndR x
  have hph2e : findRow (applyDbs (applyDbs db (phase1Ops db src normAccs))
      (phase2Ops db src (normAccs.map Prod.fst))) x =
      match db.rows.find? (fun r => r.email = x) with
      | some r0 =>
          if r0.email ∈ normAccs.map Prod.fst ∨ r0.isDeleted = true then
            findRow (applyDbs db (phase1Ops db src normAccs)) x
          else (findRow (applyDbs db (phase1Ops db src normAccs)) x).map (tombRow src)
      | none => findRow (applyDbs db (phase1Ops db src normAccs)) x := hph2
  rw [hph2e]
  have hph1 := phase1_findRow db src normAccs db hndN (fun en _ => rfl) x
  cases hfindN : normAccs.find? (fun en => en.1 = x) with
  | some en =>
      have hmemN : en ∈ normAccs := List.mem_of_find?_eq_some hfindN
      have hkey : en.1 = x := by
        have := List.find?_some hfindN
        simpa using this
      have hcur : x ∈ normAccs.map Prod.fst := by
        rw [← hkey]
        exact List.mem_map.2 ⟨en, hmemN, rfl⟩
      rw [hfindN] at hph1
      simp only [] at hph1
      simp only []
      cases hfr : findRow db x with
      | none =>
          have hfr2 : db.rows.find? (fun r => r.email = x) = none := hfr
          rw [hfr2]
          simp only []
          rw [hph1]
          unfold planAccount
          rw [hkey, hfr]
      | some row =>
          have hfr2 : db.rows.find? (fun r => r.email = x) = some row := hfr
          have hre : row.email = x := findRow_some_email db x row hfr
          rw [hfr2]
          simp only []
          rw [if_pos (Or.inl (by rw [hre]; exact hcur))]
          rw [hph1]
          unfold planAccount
          rw [hkey, hfr]
          simp only []
          by_cases hc : (decide (row.checksum ≠ sha256Hex (serialisePayload en.2)) ||
              row.isDeleted) = true
          · rw [if_pos hc]
            simp only []
            rw [if_pos (by simpa [Bool.or_eq_true, decide_eq_true_eq] using hc)]
          · rw [if_neg hc]
            simp only []
            rw [if_neg (by simpa [Bool.or_eq_true, decide_eq_true_eq] using hc)]
  | none =>
      have hnotin : x ∉ normAccs.map Prod.fst := by
        intro hmem
        rcases List.mem_map.1 hmem with ⟨en, hen, hkey⟩
        have := List.find?_eq_none.1 hfindN en hen
        simp [hkey] at this
      rw [hfindN] at hph1
      simp only [] at hph1
      simp only []
      have hfr1 : findRow (applyDbs db (phase1Ops db src normAccs)) x = findRow db x := hph1
      cases hfr : findRow db x with
      | none =>
          have hfr2 : db.rows.find? (fun r => r.email = x) = none := hfr
          rw [hfr2]
          simp only []
          exact hfr1.trans hfr
      | some row =>
          have hfr2 : db.rows.find? (fun r => r.email = x) = some row := hfr
          have hre : row.email = x := findRow_some_email db x row hfr
          rw [hfr2]
          simp only []
          by_cases hdel : row.isDeleted = true
          · rw [if_pos (Or.inr hdel), if_pos hdel]
            exact hfr1.trans hfr
          · rw [if_neg (by simp [hre, hnotin, hdel]), if_neg hdel]
            rw [hfr1, hfr]
            rfl

end AccountsSync

namespace AccountsSync

/-- C5: after a successful push against a remote state, every email satisfies
the claimed per-email outcome.  A local email absent remotely gets the
freshly written canonical row (an INSERT, counted in `added`); a local email
whose stored checksum differs or whose row is a tombstone gets the canonical
row with `is_deleted` cleared (an UPDATE, counted in `updated`); a local
email with matching checksum and live row keeps its row untouched; and every
remote row whose email is not local and that is not already a tombstone is
soft-deleted in place — payload and checksum kept, `is_deleted` set, tags
column and note cleared — and counted in `marked_deleted`.  The report's
`removed` and `skipped` are zero. -/
theorem push_per_email_effects (accounts : List (String × Payload)) (db : RemoteDB)
    (src : String) (db2 : RemoteDB) (rep : SyncReport) (normAccs : List (String × Payload))
    (hN : normaliseAccounts accounts = .ok normAccs)
    (h : pushCore accounts db src = .ok (db2, rep))
    (hndA : (accounts.map Prod.fst).Nodup)
    (hndR : (db.rows.map Row.email).Nodup) :
    (∀ e n, (e, n) ∈ normAccs → findRow db e = none →
      findRow db2 e = some (canonicalRow e n src)) ∧
    (∀ e n row, (e, n) ∈ normAccs → findRow db e = some row →
      (row.checksum ≠ sha256Hex (serialisePayload n) ∨ row.isDeleted = true) →
      findRow db2 e = some (canonicalRow e n src)) ∧
    (∀ e n row, (e, n) ∈ normAccs → findRow db e = some row →
      row.checksum = sha256Hex (serialisePayload n) → row.isDeleted = false →
      findRow db2 e = some row) ∧
    (∀ row ∈ db.rows, row.email ∉ accounts.map Prod.fst → row.isDeleted = false →
      findRow db2 row.email = some (tombRow src row)) ∧
    rep.added = pushAdded db normAccs ∧ rep.updated = pushUpdated db normAccs ∧
    rep.markedDeleted = pushMarkedDeleted db (normAccs.map Prod.fst) ∧
    rep.removed = 0 ∧ rep.skipped = 0 := by
  have hndN : (normAccs.map Prod.fst).Nodup := by
    rw [normaliseAccounts_keys accounts normAccs hN]
    exact hndA
  have hkeys := normaliseAccounts_keys accounts normAccs hN
  have hmain := pushCore_findRow accounts db src db2 rep normAccs hN h hndA hndR
  rcases pushCore_destruct accounts db src db2 rep h with ⟨normAccs2, hN2, _, hrep⟩
  rw [hN] at hN2
  injection hN2 with hN2
  subst hN2
  refine ⟨?_, ?_, ?_, ?_, ?_, ?_, ?_, ?_, ?_⟩
  · intro e n hmem hfr
    have hfind : normAccs.find? (fun en => en.1 = e) = some (e, n) :=
      find?_pair_of_mem_nodup normAccs e n hmem hndN
    rw [hmain e, hfind]
    simp only []
    rw [hfr]
  · intro e n row hmem hfr hcond
    have hfind : normAccs.find? (fun en => en.1 = e) = some (e, n) :=
      find?_pair_of_mem_nodup normAccs e n hmem hndN
    rw [hmain e, hfind]
    simp only []
    rw [hfr]
    simp only []
    rw [if_pos hcond]
  · intro e n row hmem hfr hck hdel
    have hfind : normAccs.find? (fun en => en.1 = e) = some (e, n) :=
      find?_pair_of_mem_nodup normAccs e n hmem hndN
    rw [hmain e, hfind]
    simp only []
    rw [hfr]
    simp only []
    rw [if_neg (by simp [hck, hdel])]
  · intro row hmem hnl hdel
    have hfind : normAccs.find? (fun en => en.1 = row.email) = none := by
      refine List.find?_eq_none.2 fun en hen => ?_
      simp only [decide_eq_true_eq]
      intro he
      exact hnl (by rw [← hkeys]; exact he ▸ List.mem_map.2 ⟨en, hen, rfl⟩)
    rw [hmain row.email, hfind]
    simp only []
    rw [findRow_of_mem_nodup db row hmem hndR]
    simp only []
    rw [if_neg (by simp [hdel])]
  · rw [hrep]
  · rw [hrep]
  · rw [hrep]
  · rw [hrep]
  · rw [hrep]

/-- Witness for C5 at a concrete push: one local account is inserted into a
remote store holding an unrelated live row, which gets tombstoned in place. -/
theorem push_per_email_effects_witness :
    findRow
      ⟨[⟨"old@x", [("k", JVal.prim (.str "v"))], "junk", [], none, true, "manual"⟩,
        ⟨"a@x", [("refresh_token", JVal.prim (.str "r")), ("tags", JVal.arr [])],
          "\x7b\"refresh_token\":\"r\",\"tags\":[]\x7d", [], none, false, "manual"⟩], []⟩
      "a@x" =
      some (canonicalRow "a@x"
        [("refresh_token", JVal.prim (.str "r")), ("tags", JVal.arr [])] "manual") := by
  have h := (push_per_email_effects
    [("a@x", [("refresh_token", JVal.prim (.str "r")), ("tags", JVal.arr [])])]
    ⟨[⟨"old@x", [("k", JVal.prim (.str "v"))], "junk", ["t"], some "n", false, "s"⟩],
      [("old@x", "t")]⟩
    "manual"
    ⟨[⟨"old@x", [("k", JVal.prim (.str "v"))], "junk", [], none, true, "manual"⟩,
      ⟨"a@x", [("refresh_token", JVal.prim (.str "r")), ("tags", JVal.arr [])],
        "\x7b\"refresh_token\":\"r\",\"tags\":[]\x7d", [], none, false, "manual"⟩], []⟩
    ⟨"同步完成：新增 1，更新 0，标记删除 1", 1, 0, 0, 0, 1⟩
    [("a@x", [("refresh_token", JVal.prim (.str "r")), ("tags", JVal.arr [])])]
    rfl rfl (by decide) (by decide)).1
    "a@x" [("refresh_token", JVal.prim (.str "r")), ("tags", JVal.arr [])]
    (by decide) rfl
  exact h

end AccountsSync

namespace AccountsSync

theorem findRow_none_iff (db : RemoteDB) (x : String) :
    findRow db x = none ↔ x ∉ db.rows.map Row.email := by
  unfold findRow
  rw [List.find?_eq_none]
  constructor
  · intro h hmem
    rcases List.mem_map.1 hmem with ⟨r, hr, he⟩
    have := h r hr
    simp [he] at this
  · intro h r hr
    simp only [decide_eq_true_eq]
    exact fun he => h (List.mem_map.2 ⟨r, hr, he⟩)

theorem lookupKey_mem (p : List (String × α)) (k : String) (v : α)
    (h : lookupKey p k = some v) : (k, v) ∈ p := by
  unfold lookupKey at h
  cases hf : p.find? (fun kv => kv.1 = k) with
  | none => rw [hf] at h; simp at h
  | some kv =>
      rw [hf] at h
      have hmem := List.mem_of_find?_eq_some hf
      have hkey : kv.1 = k := by
        have := List.find?_some hf
        simpa using this
      injection h with h
      have : kv = (k, v) := Prod.ext hkey h
      rw [← this]
      exact hmem

theorem pyPrimEq_refl (v : JPrim) : pyPrimEq v v = true := by
  cases v with
  | null => rfl
  | bool b => simp [pyPrimEq]
  | num n => simp [pyPrimEq]
  | str s => simp [pyPrimEq]

theorem mem_zip_self {xs : List JPrim} {ab : JPrim × JPrim} (h : ab ∈ List.zip xs xs) :
    ab.1 = ab.2 := by
  induction xs with
  | nil => simp at h
  | cons x t ih =>
      rw [List.zip_cons_cons] at h
      rcases List.mem_cons.1 h with h | h
      · rw [h]
      · exact ih h

theorem pyValEq_refl (v : JVal)
    (hwf : ∀ fs, v = JVal.obj fs → (fs.map Prod.fst).Nodup) : pyValEq v v = true := by
  cases v with
  | prim p => simpa [pyValEq] using pyPrimEq_refl p
  | arr xs =>
      simp only [pyValEq, Bool.and_eq_true, List.all_eq_true]
      refine ⟨by simp, ?_⟩
      intro ab hab
      rw [mem_zip_self hab]
      exact pyPrimEq_refl ab.2
  | obj fs =>
      have hnd := hwf fs rfl
      simp only [pyValEq, Bool.and_eq_true, List.all_eq_true]
      constructor
      · intro kv hkv
        rw [lookupKey_eq_some_of_mem_nodup fs kv.1 kv.2 (by simpa using hkv) hnd]
        exact pyPrimEq_refl kv.2
      · intro kv hkv
        simp only [hasKey, List.any_eq_true]
        exact ⟨kv, hkv, by simp⟩

theorem pyOptEq_refl (o : Option JVal)
    (hwf : ∀ v fs, o = some v → v = JVal.obj fs → (fs.map Prod.fst).Nodup) :
    pyOptEq o o = true := by
  cases o with
  | none => rfl
  | some v => simpa [pyOptEq] using pyValEq_refl v (fun fs hv => hwf v fs rfl hv)

theorem hasCritical_self (e : String) (p : Payload)
    (hwf : ∀ kv ∈ p, ∀ fs, kv.2 = JVal.obj fs → (fs.map Prod.fst).Nodup) :
    hasCriticalFieldDifferences e p p = false := by
  have hwfk : ∀ k, ∀ v fs, pyGet p k = some v → v = JVal.obj fs → (fs.map Prod.fst).Nodup := by
    intro k v fs hv hvv
    have hl : lookupKey p k = some v := by
      unfold pyGet at hv
      cases hlk : lookupKey p k with
      | none => rw [hlk] at hv; simp at hv
      | some w =>
          rw [hlk] at hv
          cases w with
          | prim pr =>
              cases pr with
              | null => simp at hv
              | bool b => injection hv with hv; rw [hv]
              | num n => injection hv with hv; rw [hv]
              | str s => injection hv with hv; rw [hv]
          | arr xs => injection hv with hv; rw [hv]
          | obj gs => injection hv with hv; rw [hv]
    exact hwf (k, v) (lookupKey_mem p k v hl) fs hvv
  unfold hasCriticalFieldDifferences
  simp only [Bool.or_eq_false_iff]
  refine ⟨⟨⟨?_, ?_⟩, ?_⟩, by simp⟩
  · simp [pyOptEq_refl (pyGet p "status") (fun v fs hv => hwfk "status" v fs hv)]
  · simp [pyOptEq_refl (pyGet p "status_updated_at")
      (fun v fs hv => hwfk "status_updated_at" v fs hv)]
  · simp [pyOptEq_refl (pyGet p "status_reason")
      (fun v fs hv => hwfk "status_reason" v fs hv)]

end AccountsSync

namespace AccountsSync

theorem filterMap_eq_self_of {α : Type} (f : α → Option α) (l : List α)
    (h : ∀ a ∈ l, f a = some a) : l.filterMap f = l := by
  induction l with
  | nil => rfl
  | cons x rest ih =>
      rw [List.filterMap_cons, h x (List.mem_cons_self x rest)]
      simp only []
      rw [ih fun a ha => h a (List.mem_cons.2 (Or.inr ha))]

theorem cleanTagPrims_strip (xs : List JPrim) :
    ∀ s ∈ cleanTagPrims xs, pyStrip s = s ∧ s ≠ "" := by
  intro s hs
  rcases List.mem_filterMap.1 hs with ⟨t, ht, heq⟩
  cases t with
  | null => simp at heq
  | bool b =>
      simp only at heq
      by_cases hz : pyStrip (pyPrimStr (JPrim.bool b)) = ""
      · rw [if_pos hz] at heq
        exact absurd heq (by simp)
      · rw [if_neg hz] at heq
        injection heq with heq
        rw [← heq]
        exact ⟨pyStrip_idem _, hz⟩
  | num n =>
      simp only at heq
      by_cases hz : pyStrip (pyPrimStr (JPrim.num n)) = ""
      · rw [if_pos hz] at heq
        exact absurd heq (by simp)
      · rw [if_neg hz] at heq
        injection heq with heq
        rw [← heq]
        exact ⟨pyStrip_idem _, hz⟩
  | str s0 =>
      simp only at heq
      by_cases hz : pyStrip (pyPrimStr (JPrim.str s0)) = ""
      · rw [if_pos hz] at heq
        exact absurd heq (by simp)
      · rw [if_neg hz] at heq
        injection heq with heq
        rw [← heq]
        exact ⟨pyStrip_idem _, hz⟩

theorem replCR_no_cr (l : List Char) : ∀ c ∈ replCR l, c ≠ '\r' := by
  intro c hc
  rcases List.mem_map.1 hc with ⟨c0, _, hmap⟩
  intro hcr
  rw [hcr] at hmap
  by_cases h0 : c0 = '\r'
  · rw [if_pos h0] at hmap
    exact absurd hmap (by decide)
  · rw [if_neg h0] at hmap
    exact h0 hmap

theorem replCR_of_no_cr (l : List Char) (h : ∀ c ∈ l, c ≠ '\r') : replCR l = l := by
  unfold replCR
  calc l.map (fun c => if c = '\r' then '\n' else c) = l.map id :=
        List.map_congr_left fun c hc => by simp [h c hc]
    _ = l := List.map_id l

theorem replCRLF_of_no_cr (l : List Char) (h : ∀ c ∈ l, c ≠ '\r') : replCRLF l = l := by
  induction l with
  | nil => rfl
  | cons c rest ih =>
      rw [replCRLF.eq_def]
      split
      · rename_i rest2 heq
        injection heq with h1 h2
        exact absurd h1 (h c (List.mem_cons_self c rest))
      · rename_i c2 rest2 hne heq
        injection heq with h1 h2
        subst h2
        rw [ih fun a ha => h a (List.mem_cons.2 (Or.inr ha)), ← h1]
      · rename_i heq
        exact absurd heq (by simp)

theorem pyStripList_subset (l : List Char) (c : Char) (h : c ∈ pyStripList l) : c ∈ l := by
  unfold pyStripList at h
  rw [List.mem_reverse] at h
  have h2 := (List.dropWhile_sublist pyIsSpace).subset h
  rw [List.mem_reverse] at h2
  exact (List.dropWhile_sublist pyIsSpace).subset h2

theorem normaliseNoteText_fix (u s : String) (h : normaliseNoteText u = some s) :
    normaliseNoteText s = some s := by
  simp only [normaliseNoteText] at h
  by_cases hn : pyStripList (replCR (replCRLF u.data)) = []
  · rw [if_pos hn] at h
    exact absurd h (by simp)
  · rw [if_neg hn] at h
    injection h with h
    have hdata : s.data = pyStripList (replCR (replCRLF u.data)) := by
      rw [← h]
    have hnocr : ∀ c ∈ s.data, c ≠ '\r' := by
      intro c hc
      rw [hdata] at hc
      exact replCR_no_cr (replCRLF u.data) c (pyStripList_subset _ c hc)
    simp only [normaliseNoteText]
    rw [replCRLF_of_no_cr s.data hnocr, replCR_of_no_cr s.data hnocr, hdata, pyStripList_idem]
    rw [if_neg hn, ← hdata, ← h]

theorem keys_setKey (p : List (String × α)) (k : String) (v : α) :
    (setKey p k v).map Prod.fst =
      if hasKey p k then p.map Prod.fst else p.map Prod.fst ++ [k] := by
  induction p with
  | nil => simp [setKey, hasKey]
  | cons kv rest ih =>
      by_cases hk : kv.1 = k
      · rw [show hasKey (kv :: rest) k = true by simp [hasKey, hk]]
        simp only [setKey, hk, if_pos, if_true, List.map_cons]
      · have hh : hasKey (kv :: rest) k = hasKey rest k := by simp [hasKey, hk]
        rw [hh]
        simp only [setKey, hk, if_neg, if_false, List.map_cons]
        rw [ih]
        by_cases h2 : hasKey rest k
        · rw [if_pos h2, if_pos h2]
        · rw [if_neg h2, if_neg h2, List.cons_append]

theorem hasKey_of_mem_keys (p : List (String × α)) (k : String)
    (h : k ∈ p.map Prod.fst) : hasKey p k = true := by
  rcases List.mem_map.1 h with ⟨kv, hkv, hk⟩
  simp only [hasKey, List.any_eq_true]
  exact ⟨kv, hkv, by simp [hk]⟩

theorem mem_keys_of_hasKey (p : List (String × α)) (k : String)
    (h : hasKey p k = true) : k ∈ p.map Prod.fst := by
  simp only [hasKey, List.any_eq_true, decide_eq_true_eq] at h
  rcases h with ⟨kv, hkv, hk⟩
  exact List.mem_map.2 ⟨kv, hkv, hk⟩

theorem keys_setKey_nodup (p : List (String × α)) (k : String) (v : α)
    (h : (p.map Prod.fst).Nodup) : ((setKey p k v).map Prod.fst).Nodup := by
  rw [keys_setKey]
  by_cases hk : hasKey p k
  · rw [if_pos hk]
    exact h
  · rw [if_neg hk]
    rw [List.nodup_append]
    refine ⟨h, List.nodup_singleton k, ?_⟩
    intro x hx hx2
    rw [List.mem_singleton] at hx2
    exact hk (hasKey_of_mem_keys p k (hx2 ▸ hx))

theorem lookupKey_popKey_self (p : List (String × α)) (k : String)
    (h : (p.map Prod.fst).Nodup) : lookupKey (popKey p k) k = none := by
  induction p with
  | nil => rfl
  | cons kv rest ih =>
      rw [List.map_cons] at h
      have hnd2 := (List.nodup_cons.1 h).2
      have hhd := (List.nodup_cons.1 h).1
      by_cases hk : kv.1 = k
      · simp only [popKey, hk, if_pos]
        apply lookupKey_none_of_not_hasKey
        by_cases hh : hasKey rest k
        · exact absurd (hk ▸ mem_keys_of_hasKey rest k hh) hhd
        · simpa using hh
      · simp only [popKey, hk, if_neg, if_false]
        rw [lookupKey_cons_of_ne _ _ _ hk]
        exact ih hnd2

end AccountsSync

namespace AccountsSync

theorem keys_normTags_nodup (p : Payload) (h : (p.map Prod.fst).Nodup) :
    ((normTags p).map Prod.fst).Nodup := by
  unfold normTags
  split
  · exact keys_setKey_nodup p "tags" _ h
  · exact keys_setKey_nodup p "tags" _ h
  · exact keys_setKey_nodup p "tags" _ h
  · exact keys_setKey_nodup p "tags" _ h

theorem normTags_shape (p : Payload) :
    ∃ ss : List String, lookupKey (normTags p) "tags" = some (.arr (ss.map JPrim.str)) ∧
      ∀ s ∈ ss, pyStrip s = s ∧ s ≠ "" := by
  unfold normTags
  split
  · exact ⟨[], lookupKey_setKey_self p "tags" _, by simp⟩
  · exact ⟨[], lookupKey_setKey_self p "tags" _, by simp⟩
  · rename_i xs hxs
    exact ⟨cleanTagPrims xs, lookupKey_setKey_self p "tags" _, cleanTagPrims_strip xs⟩
  · rename_i v h1 h2 h3
    by_cases hz : pyStrip (pyStr v) = ""
    · refine ⟨[], ?_, by simp⟩
      simp only [hz, if_pos]
      exact lookupKey_setKey_self p "tags" _
    · refine ⟨[pyStrip (pyStr v)], ?_, ?_⟩
      · simp only [hz, if_neg, if_false]
        exact lookupKey_setKey_self p "tags" _
      · intro s hs
        rw [List.mem_singleton] at hs
        rw [hs]
        exact ⟨pyStrip_idem _, hz⟩

theorem lookup_note_normalise (p q : Payload) (h : normalisePayload p = .ok q)
    (hnd : (p.map Prod.fst).Nodup) :
    lookupKey q "note" = none ∨
      ∃ s, lookupKey q "note" = some (JVal.prim (.str s)) ∧ normaliseNoteText s = some s := by
  rcases normalisePayload_destruct p q h with ⟨p4, hp4, hqq⟩
  have hq : lookupKey q "note" = lookupKey (normNote (normTags p)) "note" := by
    rw [hqq, lookup_normTokenFailures_ne _ _ (by decide),
      lookup_normStatusReason_ne _ _ (by decide),
      lookup_normStatusUpdatedAt_ne _ _ _ hp4 (by decide),
      lookup_normStatus_ne _ _ (by decide)]
  rw [hq]
  have hndT : ((normTags p).map Prod.fst).Nodup := keys_normTags_nodup p hnd
  unfold normNote
  by_cases hk : hasKey (normTags p) "note"
  · simp only [hk, if_pos]
    cases hg : pyGet (normTags p) "note" with
    | none => exact Or.inl (lookupKey_popKey_self _ "note" hndT)
    | some v =>
        simp only []
        cases hnt : normaliseNoteText (pyStr v) with
        | none => exact Or.inl (lookupKey_popKey_self _ "note" hndT)
        | some s =>
            refine Or.inr ⟨s, ?_, normaliseNoteText_fix (pyStr v) s hnt⟩
            exact lookupKey_setKey_self _ "note" _
  · simp only [hk, if_neg, if_false]
    exact Or.inl (lookupKey_none_of_not_hasKey _ "note" (by simpa using hk))

theorem tagsStrList_of_shape (p : Payload) (ss : List String)
    (h : lookupKey p "tags" = some (JVal.arr (ss.map JPrim.str))) :
    tagsStrList p = ss := by
  unfold tagsStrList
  rw [h]
  simp only []
  rw [List.filterMap_map]
  exact filterMap_eq_self_of _ ss (fun a _ => rfl)

theorem serialiseTagsList_of_strip (ss : List String)
    (hs : ∀ s ∈ ss, pyStrip s = s ∧ s ≠ "") :
    serialiseTagsList (JVal.arr (ss.map JPrim.str)) = ss := by
  unfold serialiseTagsList
  simp only []
  rw [List.filterMap_map]
  apply filterMap_eq_self_of
  intro a ha
  simp [Function.comp, pyPrimStr, (hs a ha).1, (hs a ha).2]

theorem tagsColOf_of_shape (p : Payload) (ss : List String)
    (h : lookupKey p "tags" = some (JVal.arr (ss.map JPrim.str)))
    (hs : ∀ s ∈ ss, pyStrip s = s ∧ s ≠ "") :
    tagsColOf p = ss := by
  unfold tagsColOf pyGet
  rw [h]
  simp only []
  exact serialiseTagsList_of_strip ss hs

theorem deserialiseTags_of_strip (ss : List String)
    (hs : ∀ s ∈ ss, pyStrip s = s ∧ s ≠ "") :
    deserialiseTags ss = ss := by
  unfold deserialiseTags
  apply filterMap_eq_self_of
  intro a ha
  simp [(hs a ha).1, (hs a ha).2]

theorem normalise_fix_tags_shape (p : Payload) (h : normalisePayload p = .ok p) :
    ∃ ss : List String, lookupKey p "tags" = some (JVal.arr (ss.map JPrim.str)) ∧
      ∀ s ∈ ss, pyStrip s = s ∧ s ≠ "" := by
  rcases normTags_shape p with ⟨ss, h1, h2⟩
  refine ⟨ss, ?_, h2⟩
  rw [lookup_tags_normalise p p h]
  exact h1

theorem normaliseAccounts_fixpoint :
    ∀ accounts : List (String × Payload),
      (∀ ep ∈ accounts, normalisePayload ep.2 = .ok ep.2) →
      normaliseAccounts accounts = .ok accounts := by
  intro accounts
  induction accounts with
  | nil => intro _; rfl
  | cons ep rest ih =>
      intro h
      unfold normaliseAccounts
      rw [h ep (List.mem_cons_self ep rest), ih fun e he => h e (List.mem_cons.2 (Or.inr he))]
      simp only [Bind.bind, Except.bind, pure, Except.pure]

end AccountsSync

namespace AccountsSync

theorem rowToRemote_ok_facts (tbl : List (String × String)) (row : Row)
    (er : String × RemoteRec) (h : rowToRemote tbl row = .ok er) :
    er.1 = row.email ∧ er.2.isDeleted = row.isDeleted := by
  simp only [rowToRemote, Bind.bind, Except.bind, pure, Except.pure] at h
  split at h
  · exact absurd h (by simp)
  · injection h with h
    rw [← h]
    exact ⟨rfl, rfl⟩

theorem mergeStep_absent_tombstone (strat : String) (st : MergeState) (e : String)
    (r : RemoteRec) (hl : lookupKey st.merged e = none) (hdel : r.isDeleted = true) :
    mergeStep strat st (e, r) = .ok st := by
  unfold mergeStep
  simp [hl, hdel, Bind.bind, Except.bind, pure, Except.pure]

theorem foldlM_mergeStep_const (strat : String) (st : MergeState) :
    ∀ remotes : List (String × RemoteRec),
      (∀ er ∈ remotes, mergeStep strat st er = .ok st) →
      remotes.foldlM (mergeStep strat) st = .ok st := by
  intro remotes
  induction remotes with
  | nil => intro _; rfl
  | cons er rest ih =>
      intro h
      rw [List.foldlM_cons, h er (List.mem_cons_self er rest)]
      simp only [Bind.bind, Except.bind]
      exact ih fun e2 he => h e2 (List.mem_cons.2 (Or.inr he))

theorem pullRemotes_mem (tbl : List (String × String)) :
    ∀ (rows : List Row) (l : List (String × RemoteRec)),
      pullRemotes tbl rows = .ok l →
      ∀ er ∈ l, ∃ row ∈ rows, rowToRemote tbl row = .ok er := by
  intro rows
  induction rows with
  | nil =>
      intro l h er her
      unfold pullRemotes at h
      injection h with h
      rw [← h] at her
      simp at her
  | cons row rest ih =>
      intro l h er her
      unfold pullRemotes at h
      cases h1 : rowToRemote tbl row with
      | error e => rw [h1] at h; simp [Bind.bind, Except.bind] at h
      | ok er0 =>
          rw [h1] at h
          cases h2 : pullRemotes tbl rest with
          | error e => rw [h2] at h; simp [Bind.bind, Except.bind] at h
          | ok tail =>
              rw [h2] at h
              simp only [Bind.bind, Except.bind, pure, Except.pure] at h
              injection h with h
              rw [← h] at her
              rcases List.mem_cons.1 her with hc | hc
              · exact ⟨row, List.mem_cons_self row rest, by rw [h1, hc]⟩
              · rcases ih tail h2 er hc with ⟨r2, hr2, hr3⟩
                exact ⟨r2, List.mem_cons.2 (Or.inr hr2), hr3⟩

theorem rowToRemote_canonical (tbl : List (String × String)) (row : Row) (p : Payload)
    (hfix : normalisePayload p = .ok p)
    (hnd : (p.map Prod.fst).Nodup)
    (htags : ∀ t, t ∈ tagsOf tbl row.email ↔ t ∈ tagsStrList p)
    (hsorted : (tagsStrList p).Pairwise fun a b => strLt a b = true)
    (hdata : row.data = p) (htc : row.tagsCol = tagsColOf p)
    (hnc : row.noteCol = noteColOf p) (hdel : row.isDeleted = false) :
    rowToRemote tbl row = .ok (row.email, ⟨p, sha256Hex (serialisePayload p), false⟩) := by
  rcases normalise_fix_tags_shape p hfix with ⟨ss, hsh, hstrip⟩
  have hts : tagsStrList p = ss := tagsStrList_of_shape p ss hsh
  have hnds : (tagsOf tbl row.email).Nodup := by
    unfold tagsOf
    exact List.nodup_dedup _
  have hsort : sortBy id (tagsOf tbl row.email) = tagsStrList p := by
    apply eq_of_mem_pairwise_strLt
    · apply pairwise_strLt_of_le_nodup
      · exact pairwise_sortBy id _
      · exact ((sortBy_perm id _).nodup_iff).2 hnds
    · exact hsorted
    · intro t
      rw [mem_sortBy]
      exact htags t
  have hkey : hasKey p "tags" = true := by
    rw [← lookupKey_isSome_iff_hasKey, hsh]
    rfl
  simp only [rowToRemote]
  rw [hdata, htc, hnc, hdel, hsort, hts, tagsColOf_of_shape p ss hsh hstrip,
    deserialiseTags_of_strip ss hstrip, ite_self]
  have hp1 : (if ss ≠ [] then setKey p "tags" (JVal.arr (ss.map JPrim.str))
      else if hasKey p "tags" then p else setKey p "tags" (JVal.arr [])) = p := by
    by_cases hss : ss = []
    · rw [if_neg (by simp [hss]), if_pos hkey]
    · rw [if_pos hss]
      exact setKey_self p "tags" _ hsh
  rw [hp1]
  simp only [Bind.bind, Except.bind]
  rw [hfix]
  simp only []
  rcases lookup_note_normalise p p hfix hnd with hnone | ⟨s, hlk, hfx⟩
  · have hNC : noteColOf p = none := by
      unfold noteColOf
      rw [hnone]
    rw [hNC]
    simp only [pure, Except.pure]
  · have hNC : noteColOf p = some s := by
      unfold noteColOf
      rw [hlk]
    rw [hNC]
    simp only []
    rw [hfx]
    simp only []
    rw [setKey_self p "note" _ hlk]
    simp only [pure, Except.pure]

end AccountsSync

namespace AccountsSync

theorem phase1_insert_emails (db : RemoteDB) (src : String) :
    ∀ normAccs : List (String × Payload),
      (phase1Ops db src normAccs).filterMap
          (fun op => match op with | .insertRow r => some r.email | _ => none) =
        (normAccs.filter fun en => (findRow db en.1).isNone).map Prod.fst := by
  intro normAccs
  induction normAccs with
  | nil => rfl
  | cons en rest ih =>
      unfold phase1Ops
      rw [List.filterMap_cons, List.filter_cons]
      cases hfr : findRow db en.1 with
      | none =>
          have hplan : planAccount db src en.1 en.2 =
              some (.insertRow (canonicalRow en.1 en.2 src)) := by
            unfold planAccount
            rw [hfr]
          rw [hplan]
          simp only []
          rw [List.filterMap_cons]
          simp only [Option.isNone_none]
          rw [if_pos trivial, List.map_cons]
          unfold phase1Ops at ih
          rw [ih]
          exact rfl
      | some row =>
          simp only [Option.isNone_some]
          rw [if_neg (by simp)]
          by_cases hcnd : (decide (row.checksum ≠ sha256Hex (serialisePayload en.2)) ||
              row.isDeleted) = true
          · have hplan : planAccount db src en.1 en.2 =
                some (.updateRow (canonicalRow en.1 en.2 src)) := by
              unfold planAccount
              rw [hfr]
              simp only []
              rw [if_pos hcnd]
            rw [hplan]
            simp only []
            rw [List.filterMap_cons]
            simp only []
            unfold phase1Ops at ih
            rw [ih]
          · have hplan : planAccount db src en.1 en.2 = none := by
              unfold planAccount
              rw [hfr]
              simp only []
              rw [if_neg hcnd]
            rw [hplan]
            simp only []
            unfold phase1Ops at ih
            rw [ih]

theorem phase2_insert_emails (db : RemoteDB) (src : String) (cur : List String) :
    (phase2Ops db src cur).filterMap
      (fun op => match op with | .insertRow r => some r.email | _ => none) = [] := by
  rw [List.filterMap_eq_nil_iff]
  intro op hop
  unfold phase2Ops at hop
  rcases List.mem_filterMap.1 hop with ⟨r, hr, hmk⟩
  by_cases hcnd : (decide (r.email ∈ cur) || r.isDeleted) = true
  · rw [if_pos hcnd] at hmk
    exact absurd hmk (by simp)
  · rw [if_neg hcnd] at hmk
    injection hmk with hmk
    rw [← hmk]

theorem tagOps_insert_emails (db : RemoteDB) (normAccs : List (String × Payload)) :
    (pushTagOps db normAccs).filterMap
      (fun op => match op with | .insertRow r => some r.email | _ => none) = [] := by
  rw [List.filterMap_eq_nil_iff]
  intro op hop
  simp only [pushTagOps] at hop
  rw [List.mem_flatten] at hop
  rcases hop with ⟨l, hl, hopl⟩
  rcases List.mem_map.1 hl with ⟨e, he, hle⟩
  rw [← hle] at hopl
  simp only [tagMutationOps] at hopl
  split at hopl
  · simp at hopl
  · rcases List.mem_append.1 hopl with hc | hc
    · rcases List.mem_map.1 hc with ⟨t, _, hti⟩
      rw [← hti]
    · rcases List.mem_map.1 hc with ⟨t, _, hti⟩
      rw [← hti]

end AccountsSync

namespace AccountsSync

theorem pushCore_rows_emails (accounts : List (String × Payload)) (db : RemoteDB)
    (src : String) (db2 : RemoteDB) (rep : SyncReport) (normAccs : List (String × Payload))
    (hN : normaliseAccounts accounts = .ok normAccs)
    (h : pushCore accounts db src = .ok (db2, rep)) :
    db2.rows.map Row.email = db.rows.map Row.email ++
      ((normAccs.filter fun en => (findRow db en.1).isNone).map Prod.fst) := by
  rcases pushCore_destruct accounts db src db2 rep h with ⟨normAccs2, hN2, hdb2, _⟩
  rw [hN] at hN2
  injection hN2 with hN2
  subst hN2
  rw [hdb2, rows_emails_applyDbs, List.filterMap_append, List.filterMap_append,
    phase1_insert_emails, phase2_insert_emails, tagOps_insert_emails,
    List.append_nil, List.append_nil]

theorem pushCore_emails_nodup (accounts : List (String × Payload)) (db : RemoteDB)
    (src : String) (db2 : RemoteDB) (rep : SyncReport) (normAccs : List (String × Payload))
    (hN : normaliseAccounts accounts = .ok normAccs)
    (h : pushCore accounts db src = .ok (db2, rep))
    (hndA : (accounts.map Prod.fst).Nodup)
    (hndR : (db.rows.map Row.email).Nodup) :
    (db2.rows.map Row.email).Nodup := by
  have hndN : (normAccs.map Prod.fst).Nodup := by
    rw [normaliseAccounts_keys accounts normAccs hN]
    exact hndA
  rw [pushCore_rows_emails accounts db src db2 rep normAccs hN h, List.nodup_append]
  refine ⟨hndR, ?_, ?_⟩
  · exact hndN.sublist ((List.filter_sublist normAccs).map Prod.fst)
  · intro x hx hx2
    rcases List.mem_map.1 hx2 with ⟨en, hen, hfst⟩
    have hmemf := List.mem_filter.1 hen
    have hfn : findRow db en.1 = none :=
      Option.isNone_iff_eq_none.1 (by simpa using hmemf.2)
    rw [findRow_none_iff] at hfn
    exact hfn (hfst ▸ hx)

theorem pushCore_tagTbl (accounts : List (String × Payload)) (db : RemoteDB)
    (src : String) (db2 : RemoteDB) (rep : SyncReport) (normAccs : List (String × Payload))
    (hN : normaliseAccounts accounts = .ok normAccs)
    (h : pushCore accounts db src = .ok (db2, rep)) :
    ∀ x t, ((x, t) ∈ db2.tagTbl) ↔
      (if x ∈ (db.rows.map (fun r => r.email) ++ normAccs.map Prod.fst).dedup
       then t ∈ (lookupKey (normAccs.map fun en => (en.1, tagsTargetOf en.2)) x).getD []
       else (x, t) ∈ db.tagTbl) := by
  rcases pushCore_destruct accounts db src db2 rep h with ⟨normAccs2, hN2, hdb2, _⟩
  rw [hN] at hN2
  injection hN2 with hN2
  subst hN2
  intro x t
  have htbl1 : (applyDbs (applyDbs db (phase1Ops db src normAccs))
      (phase2Ops db src (normAccs.map Prod.fst))).tagTbl = db.tagTbl := by
    unfold phase2Ops
    rw [tagTbl_phase2, tagTbl_phase1]
  rw [hdb2, applyDbs_append, applyDbs_append]
  simp only [pushTagOps]
  rw [tagOpsFold_mem db.tagTbl
    (fun e => (lookupKey (normAccs.map fun en => (en.1, tagsTargetOf en.2)) e).getD [])
    ((db.rows.map (fun r => r.email) ++ normAccs.map Prod.fst).dedup)
    (applyDbs (applyDbs db (phase1Ops db src normAccs))
      (phase2Ops db src (normAccs.map Prod.fst)))
    (List.nodup_dedup _)
    (fun e _ u => by rw [htbl1])
    x t]
  rw [htbl1]

end AccountsSync

namespace AccountsSync

/-- C8 (amended): push followed by pull converges — the pull leaves the local
map unchanged, reports `changed = false` and zero `added`/`updated`/`removed`
counters under either conflict strategy — for local states that are fixpoints
of the normaliser with canonically sorted, duplicate-free tags, and a remote
whose live rows are consistent with the local data they match by checksum.
The claim as stated (for every local record set) is refuted by
`push_pull_duplicate_tags_counterexample`: the remote tag relation is a set,
so duplicated or unsorted local tags do not round-trip. -/
theorem push_pull_converges (accounts : List (String × Payload)) (db : RemoteDB)
    (src strat : String) (db2 : RemoteDB) (rep : SyncReport)
    (merged2 : List (String × Payload)) (rep2 : SyncReport) (changed : Bool)
    (hpush : pushCore accounts db src = .ok (db2, rep))
    (hpull : pullCore strat accounts db2 = .ok (merged2, rep2, changed))
    (hndA : (accounts.map Prod.fst).Nodup)
    (hndR : (db.rows.map Row.email).Nodup)
    (hfix : ∀ ep ∈ accounts, normalisePayload ep.2 = .ok ep.2)
    (hkeys : ∀ ep ∈ accounts, ((ep.2 : Payload).map Prod.fst).Nodup)
    (hobj : ∀ ep ∈ accounts, ∀ kv ∈ ep.2, ∀ fs, kv.2 = JVal.obj fs → (fs.map Prod.fst).Nodup)
    (hsorted : ∀ ep ∈ accounts, (tagsStrList ep.2).Pairwise fun a b => strLt a b = true)
    (hlive : ∀ row ∈ db.rows, row.isDeleted = false → ∀ p, (row.email, p) ∈ accounts →
      row.checksum = sha256Hex (serialisePayload p) →
      row.data = p ∧ row.tagsCol = tagsColOf p ∧ row.noteCol = noteColOf p) :
    merged2 = accounts ∧ changed = false ∧
      rep2.added = 0 ∧ rep2.updated = 0 ∧ rep2.removed = 0 := by
  have hN : normaliseAccounts accounts = .ok accounts := normaliseAccounts_fixpoint accounts hfix
  simp only [pullCore, Bind.bind, Except.bind] at hpull
  cases hrem : pullRemotes db2.tagTbl db2.rows with
  | error e => rw [hrem] at hpull; simp at hpull
  | ok remotes =>
  rw [hrem] at hpull
  simp only [] at hpull
  have hnd2 : (db2.rows.map Row.email).Nodup :=
    pushCore_emails_nodup accounts db src db2 rep accounts hN hpush hndA hndR
  have htagTbl := pushCore_tagTbl accounts db src db2 rep accounts hN hpush
  have hstep : ∀ er ∈ remotes, mergeStep strat ⟨accounts, 0, 0, 0, 0, false⟩ er =
      .ok ⟨accounts, 0, 0, 0, 0, false⟩ := by
    intro er her
    rcases pullRemotes_mem db2.tagTbl db2.rows remotes hrem er her with ⟨row, hrow, hr2r⟩
    have hfr2 : findRow db2 row.email = some row := findRow_of_mem_nodup db2 row hrow hnd2
    have hchar := pushCore_findRow accounts db src db2 rep accounts hN hpush hndA hndR row.email
    cases hfind : accounts.find? (fun en => en.1 = row.email) with
    | some en =>
        rw [hfind] at hchar
        simp only [] at hchar
        have hmemA : en ∈ accounts := List.mem_of_find?_eq_some hfind
        have hkey : en.1 = row.email := by simpa using List.find?_some hfind
        have hfacts : row.data = en.2 ∧ row.tagsCol = tagsColOf en.2 ∧
            row.noteCol = noteColOf en.2 ∧ row.isDeleted = false := by
          cases hfr : findRow db row.email with
          | none =>
              rw [hfr] at hchar
              simp only [] at hchar
              rw [hfr2] at hchar
              injection hchar with hchar
              exact ⟨by rw [hchar]; rfl, by rw [hchar]; rfl, by rw [hchar]; rfl,
                by rw [hchar]; rfl⟩
          | some row0 =>
              rw [hfr] at hchar
              simp only [] at hchar
              by_cases hupd : (row0.checksum ≠ sha256Hex (serialisePayload en.2) ∨
                  row0.isDeleted = true)
              · rw [if_pos hupd] at hchar
                rw [hfr2] at hchar
                injection hchar with hchar
                exact ⟨by rw [hchar]; rfl, by rw [hchar]; rfl, by rw [hchar]; rfl,
                  by rw [hchar]; rfl⟩
              · rw [if_neg hupd] at hchar
                rw [hfr2] at hchar
                injection hchar with hchar
                have hcks : row0.checksum = sha256Hex (serialisePayload en.2) := by
                  by_contra hne
                  exact hupd (Or.inl hne)
                have hdel0 : row0.isDeleted = false := by
                  cases hb : row0.isDeleted with
                  | false => rfl
                  | true => exact absurd (Or.inr hb) hupd
                have hre : row0.email = row.email := findRow_some_email db row.email row0 hfr
                have hmem0 : row0 ∈ db.rows := List.mem_of_find?_eq_some hfr
                have hcanon := hlive row0 hmem0 hdel0 en.2
                  (by rw [hre, ← hkey]; exact hmemA) hcks
                refine ⟨?_, ?_, ?_, ?_⟩
                · rw [hchar]; exact hcanon.1
                · rw [hchar]; exact hcanon.2.1
                · rw [hchar]; exact hcanon.2.2
                · rw [hchar]; exact hdel0
        rcases hfacts with ⟨hd, htc, hnc, hdel⟩
        have hallE : row.email ∈ (db.rows.map (fun r => r.email) ++
            accounts.map Prod.fst).dedup := by
          rw [List.mem_dedup]
          exact List.mem_append.2 (Or.inr (hkey ▸ List.mem_map.2 ⟨en, hmemA, rfl⟩))
        have hlkT : lookupKey (accounts.map fun en2 => (en2.1, tagsTargetOf en2.2))
            row.email = some (tagsTargetOf en.2) := by
          unfold lookupKey
          rw [find?_pair_of_mem_nodup _ row.email (tagsTargetOf en.2)
            (List.mem_map.2 ⟨en, hmemA, by simp [hkey]⟩)
            (by rw [List.map_map]; exact hndA)]
          rfl
        have htags : ∀ t, t ∈ tagsOf db2.tagTbl row.email ↔ t ∈ tagsStrList en.2 := by
          intro t
          rw [tagsOf_mem, htagTbl row.email t, if_pos hallE, hlkT]
          simp only [Option.getD_some]
          unfold tagsTargetOf
          exact List.mem_dedup
        have hcan := rowToRemote_canonical db2.tagTbl row en.2
          (hfix en hmemA) (hkeys en hmemA) htags (hsorted en hmemA) hd htc hnc hdel
        have her2 : er = (row.email, ⟨en.2, sha256Hex (serialisePayload en.2), false⟩) := by
          rw [hcan] at hr2r
          injection hr2r with h
          exact h.symm
        rw [her2]
        apply mergeStep_noop_aux strat _ row.email _ en.2 en.2
        · rw [← hkey]
          exact lookupKey_eq_some_of_mem_nodup accounts en.1 en.2 hmemA hndA
        · exact hfix en hmemA
        · rfl
        · rfl
        · exact hasCritical_self row.email en.2 (hobj en hmemA)
    | none =>
        rw [hfind] at hchar
        simp only [] at hchar
        have hdel : row.isDeleted = true := by
          cases hfr : findRow db row.email with
          | none =>
              rw [hfr] at hchar
              simp only [] at hchar
              rw [hfr2] at hchar
              exact absurd hchar (by simp)
          | some row0 =>
              rw [hfr] at hchar
              simp only [] at hchar
              by_cases hd0 : row0.isDeleted = true
              · rw [if_pos hd0] at hchar
                rw [hfr2] at hchar
                injection hchar with hchar
                rw [hchar]
                exact hd0
              · rw [if_neg hd0] at hchar
                rw [hfr2] at hchar
                injection hchar with hchar
                rw [hchar]
                rfl
        have hfl := rowToRemote_ok_facts db2.tagTbl row er hr2r
        have hnotin : row.email ∉ accounts.map Prod.fst := by
          intro hmem
          rcases List.mem_map.1 hmem with ⟨en, hen, hk⟩
          have := List.find?_eq_none.1 hfind en hen
          simp [hk] at this
        have hlk : lookupKey accounts er.1 = none := by
          rw [hfl.1]
          apply lookupKey_none_of_not_hasKey
          by_cases hh : hasKey accounts row.email
          · exact absurd (mem_keys_of_hasKey accounts row.email hh) hnotin
          · simpa using hh
        have hres := mergeStep_absent_tombstone strat ⟨accounts, 0, 0, 0, 0, false⟩
          er.1 er.2 hlk (hfl.2.trans hdel)
        simpa using hres
  have hfold := foldlM_mergeStep_const strat ⟨accounts, 0, 0, 0, 0, false⟩ remotes hstep
  simp only [mergeRemoteIntoLocal, Bind.bind, Except.bind] at hpull
  rw [hfold] at hpull
  simp only [pure, Except.pure] at hpull
  injection hpull with hpull
  have hm := congrArg Prod.fst hpull
  have hr := congrArg (fun q => q.2.1) hpull
  have hc := congrArg (fun q => q.2.2) hpull
  refine ⟨?_, ?_, ?_, ?_, ?_⟩
  · exact hm.symm
  · exact hc.symm
  · exact congrArg SyncReport.added hr.symm
  · exact congrArg SyncReport.updated hr.symm
  · exact congrArg SyncReport.removed hr.symm

end AccountsSync

namespace AccountsSync

/-- C8 (counterexample): the claim promises convergence for every local
record set, but a record whose tags list holds a duplicate refutes it.
Pushing `{"a@x": {"tags": ["x", "x"]}}` into an empty remote store writes the
row verbatim yet collapses the tag relation to the set `{("a@x", "x")}`;
the following pull rebuilds the tags from that relation, obtains `["x"]`,
gets a different checksum, and under `prefer_local` merges and reports
`updated = 1` with `changed = true` instead of the promised all-zero
report. -/
theorem push_pull_duplicate_tags_counterexample :
    pushCore [("a@x", [("tags", JVal.arr [.str "x", .str "x"])])] ⟨[], []⟩ "s" =
      .ok (⟨[⟨"a@x", [("tags", JVal.arr [.str "x", .str "x"])],
              "\x7b\"tags\":[\"x\",\"x\"]\x7d", ["x", "x"], none, false, "s"⟩],
            [("a@x", "x")]⟩,
        ⟨"同步完成：新增 1，更新 0，标记删除 0", 1, 0, 0, 0, 0⟩) ∧
    pullCore "prefer_local" [("a@x", [("tags", JVal.arr [.str "x", .str "x"])])]
        ⟨[⟨"a@x", [("tags", JVal.arr [.str "x", .str "x"])],
           "\x7b\"tags\":[\"x\",\"x\"]\x7d", ["x", "x"], none, false, "s"⟩],
         [("a@x", "x")]⟩ =
      .ok ([("a@x", [("tags", JVal.arr [.str "x"])])],
        ⟨"同步完成：新增 0，更新 1，移除 0，跳过 0", 0, 1, 0, 0, 0⟩, true) :=
  ⟨rfl, rfl⟩

/-- Witness for the amended C8 theorem at a concrete one-account store pushed
into an empty remote store and pulled back under `prefer_local`. -/
theorem push_pull_converges_witness :
    ([("a@x", [("refresh_token", JVal.prim (.str "r")), ("tags", JVal.arr [])])] :
        List (String × Payload)) =
      [("a@x", [("refresh_token", JVal.prim (.str "r")), ("tags", JVal.arr [])])] ∧
    false = false ∧
    (⟨"同步完成：新增 0，更新 0，移除 0，跳过 0", 0, 0, 0, 0, 0⟩ : SyncReport).added = 0 ∧
    (⟨"同步完成：新增 0，更新 0，移除 0，跳过 0", 0, 0, 0, 0, 0⟩ : SyncReport).updated = 0 ∧
    (⟨"同步完成：新增 0，更新 0，移除 0，跳过 0", 0, 0, 0, 0, 0⟩ : SyncReport).removed = 0 :=
  push_pull_converges
    [("a@x", [("refresh_token", JVal.prim (.str "r")), ("tags", JVal.arr [])])]
    ⟨[], []⟩ "s" "prefer_local"
    ⟨[⟨"a@x", [("refresh_token", JVal.prim (.str "r")), ("tags", JVal.arr [])],
        "\x7b\"refresh_token\":\"r\",\"tags\":[]\x7d", [], none, false, "s"⟩], []⟩
    ⟨"同步完成：新增 1，更新 0，标记删除 0", 1, 0, 0, 0, 0⟩
    [("a@x", [("refresh_token", JVal.prim (.str "r")), ("tags", JVal.arr [])])]
    ⟨"同步完成：新增 0，更新 0，移除 0，跳过 0", 0, 0, 0, 0, 0⟩
    false
    rfl rfl (by decide) (by decide)
    (fun ep hep => by rw [List.mem_singleton] at hep; rw [hep]; rfl)
    (by decide)
    (fun ep hep => by
      rw [List.mem_singleton] at hep
      subst hep
      intro kv hkv fs hfs
      simp only [List.mem_cons, List.not_mem_nil, or_false] at hkv
      rcases hkv with h | h
      · rw [h] at hfs
        exact absurd hfs (by simp)
      · rw [h] at hfs
        exact absurd hfs (by simp))
    (by decide)
    (fun row hrow => absurd hrow (by simp))

end AccountsSync
